import Mathlib

/-!
# Shape recognition coursework: classifier, display scaler and per-outline loop

A shallow embedding of `ShapeRecognitionCoursework.cpp`.

* `float` and `double` values are the rationals they denote.  Every arithmetic
  operation of the program is followed by the IEEE-754 round-to-nearest-even
  step of its type (`f32` for `float`, `f64` for `double`).  The exponent range
  is not bounded: all quantities of the program come from 32-bit integers and
  stay far away from overflow and from the subnormal range.
* `int` values are integers (`ℤ`); image and outline coordinates are far below
  the 32-bit limit, which is made explicit as a hypothesis where a theorem
  depends on it.
* Every floating-point division is a checked operation returning a fault for
  a zero divisor, so that "never divides by zero" is a statement about the
  result of the embedded function.
* The OpenCV routines `boundingRect`, `contourArea` and `arcLength` are
  modelled from their implementation for integer points; `contourArea` rejects
  an empty point list, as the library's argument check does.  The routines
  whose algorithm is not part of the program (`approxPolyDP`,
  `minEnclosingCircle`, `moments`) are fields of `CvLib`, together with the two
  facts about them that the program relies on; every theorem quantifies over
  `CvLib`.
-/

namespace ShapeRecognition

/-! ## Floating point -/

/-- Round a rational to the nearest integer, ties to the even neighbour. -/
def roundHalfEven (q : ℚ) : ℤ :=
  let f := ⌊q⌋
  let r := q - f
  if r < 1 / 2 then f
  else if 1 / 2 < r then f + 1
  else if f % 2 = 0 then f else f + 1

/-- Binary logarithm of a natural number by halving, with explicit fuel. -/
def log2Fuel : ℕ → ℕ → ℕ
  | 0, _ => 0
  | fuel + 1, n => if 2 ≤ n then log2Fuel fuel (n / 2) + 1 else 0

/-- Floor of the binary logarithm of a natural number (`0` for `0`). -/
def natLog2 (n : ℕ) : ℕ := log2Fuel n n

/-- Binary exponent of a positive rational: the `e` with `2 ^ e ≤ q < 2 ^ (e + 1)`. -/
def ilog2 (q : ℚ) : ℤ :=
  let e0 : ℤ := (natLog2 q.num.natAbs : ℤ) - (natLog2 q.den : ℤ)
  if (2 : ℚ) ^ e0 ≤ q then e0 else e0 - 1

/-- Bitwise integer square root: `r` is the root found so far, `k` the number
of lower bits still to decide. -/
def isqrtGo (n : ℕ) : ℕ → ℕ → ℕ
  | 0, r => r
  | k + 1, r => isqrtGo n k (if (r + 2 ^ k) * (r + 2 ^ k) ≤ n then r + 2 ^ k else r)

/-- Floor of the square root of a natural number. -/
def isqrt (n : ℕ) : ℕ := isqrtGo n (natLog2 n / 2 + 1) 0

/-- Round `q` to the nearest binary floating-point number with `p` significant
bits, ties to even (IEEE-754 default rounding, unbounded exponent). -/
def fround (p : ℕ) (q : ℚ) : ℚ :=
  if q = 0 then 0
  else
    let e : ℤ := ilog2 |q|
    let ulp : ℚ := (2 : ℚ) ^ (e - ((p : ℤ) - 1))
    roundHalfEven (q / ulp) * ulp

/-- Rounding to `float` (24 significant bits). -/
def f32 (q : ℚ) : ℚ := fround 24 q

/-- Rounding to `double` (53 significant bits). -/
def f64 (q : ℚ) : ℚ := fround 53 q

/-- Correctly rounded `float` square root (`std::sqrt(float)`): the `float`
nearest to the square root of `x`; `0` for `x ≤ 0`. -/
def sqrt32 (x : ℚ) : ℚ :=
  if x ≤ 0 then 0
  else
    let e : ℤ := ilog2 x
    let h : ℤ := e / 2
    let ulp : ℚ := (2 : ℚ) ^ (h - 23)
    let n : ℚ := x / (ulp * ulp)
    let m : ℕ := isqrt ⌊n⌋₊
    let r : ℕ :=
      if 4 * n < ((2 * m + 1 : ℕ) : ℚ) ^ 2 then m
      else if ((2 * m + 1 : ℕ) : ℚ) ^ 2 < 4 * n then m + 1
      else if m % 2 = 0 then m else m + 1
    (r : ℚ) * ulp

/-- Conversion `static_cast<int>(double)`: truncation towards zero. -/
def truncToInt (q : ℚ) : ℤ := if 0 ≤ q then ⌊q⌋ else ⌈q⌉

/-- OpenCV `cvRound` / `saturate_cast<int>(double)`: nearest integer, ties to even. -/
def cvRound (q : ℚ) : ℤ := roundHalfEven q

/-- Run-time faults of the embedded program. -/
inductive Fault where
  | divisionByZero
  | cvAssertion
  deriving DecidableEq, Repr

/-- Checked `float` division. -/
def fdiv32 (a b : ℚ) : Except Fault ℚ :=
  if b = 0 then .error .divisionByZero else .ok (f32 (a / b))

/-- Checked `double` division. -/
def fdiv64 (a b : ℚ) : Except Fault ℚ :=
  if b = 0 then .error .divisionByZero else .ok (f64 (a / b))

/-- The `double` literal `0.95`. -/
def d_0_95 : ℚ := f64 (95 / 100)
/-- The `double` literal `1.05`. -/
def d_1_05 : ℚ := f64 (105 / 100)
/-- The `double` literal `0.85`. -/
def d_0_85 : ℚ := f64 (85 / 100)
/-- The `double` literal `1.15`. -/
def d_1_15 : ℚ := f64 (115 / 100)
/-- The `double` literal `0.15`. -/
def d_0_15 : ℚ := f64 (15 / 100)
/-- The `double` literal `0.01`. -/
def d_0_01 : ℚ := f64 (1 / 100)
/-- OpenCV `CV_PI`, the `double` literal `3.1415926535897932384626433832795`. -/
def CV_PI : ℚ := f64 (31415926535897932384626433832795 / 10000000000000000000000000000000)

/-! ## Data -/

/-- An integer pixel coordinate, `cv::Point`. -/
structure Point where
  x : ℤ
  y : ℤ
  deriving DecidableEq, Repr

/-- An axis-aligned box, `cv::Rect`. -/
structure Rect where
  x : ℤ
  y : ℤ
  width : ℤ
  height : ℤ
  deriving DecidableEq, Repr

/-- The moments read by the program, `cv::Moments`. -/
structure Moments where
  m00 : ℚ
  m10 : ℚ
  m01 : ℚ

/-- A raster image, `cv::Mat`: size, element type and the sample accessor
`at<uchar>(r, c)`. -/
structure Mat where
  rows : ℕ
  cols : ℕ
  type : ℕ
  px : ℕ → ℕ → ℕ

/-- Element type code of a single-channel 8-bit image. -/
def CV_8UC1 : ℕ := 0

/-- Emptiness test `cv::Mat::empty()`: no element. -/
def Mat.empty (m : Mat) : Bool := m.rows = 0 || m.cols = 0

/-- Resampling modes passed to `cv::resize`. -/
inductive Interpolation where
  | INTER_NEAREST
  | INTER_LINEAR
  deriving DecidableEq, Repr

/-- What `getScaledDisplayImage` hands back: an empty image, a copy of the
source, or the output of `cv::resize` with its size and resampling mode. -/
inductive DisplayImage where
  | emptyMat
  | clone (src : Mat)
  | resized (src : Mat) (width height : ℤ) (interpolationMethod : Interpolation)

/-- Width of a returned image. -/
def DisplayImage.width : DisplayImage → ℤ
  | .emptyMat => 0
  | .clone src => src.cols
  | .resized _ w _ _ => w

/-- Height of a returned image. -/
def DisplayImage.height : DisplayImage → ℤ
  | .emptyMat => 0
  | .clone src => src.rows
  | .resized _ _ h _ => h

/-! ## OpenCV routines modelled from their implementation -/

/-- Conversion of an integer point to `cv::Point2f`. -/
def toPoint2f (p : Point) : ℚ × ℚ := (f32 p.x, f32 p.y)

/-- Bounding box `cv::boundingRect` of integer points: the inclusive pixel
extent, and the zero box for no point. -/
def boundingRect (pts : List Point) : Rect :=
  match pts with
  | [] => ⟨0, 0, 0, 0⟩
  | p :: rest =>
    let xmin := rest.foldl (fun m q => min m q.x) p.x
    let ymin := rest.foldl (fun m q => min m q.y) p.y
    let xmax := rest.foldl (fun m q => max m q.x) p.x
    let ymax := rest.foldl (fun m q => max m q.y) p.y
    ⟨xmin, ymin, xmax - xmin + 1, ymax - ymin + 1⟩

/-- One step of the shoelace accumulation of `cv::contourArea`:
`a00 += (double)prev.x * p.y - (double)prev.y * p.x; prev = p`. -/
def areaStep (st : (ℚ × ℚ) × ℚ) (pt : Point) : (ℚ × ℚ) × ℚ :=
  let p := toPoint2f pt
  (p, f64 (st.2 + f64 (f64 (st.1.1 * p.2) - f64 (st.1.2 * p.1))))

/-- Area `cv::contourArea(contour)` (not oriented): an empty point list fails
the argument check of the library (`CV_Assert(npoints >= 0 && ...)` on the
empty matrix it converts to); otherwise the points are converted to `float`,
the shoelace sum is accumulated in `double` starting from the last point,
halved, and its absolute value returned. -/
def contourArea (contour : List Point) : Except Fault ℚ :=
  match contour.getLast? with
  | none => .error .cvAssertion
  | some last =>
    let a00 := (contour.foldl areaStep (toPoint2f last, 0)).2
    .ok |f64 (a00 * (1 / 2))|

/-- One step of the accumulation of `cv::arcLength`:
`dx = p.x - prev.x; dy = p.y - prev.y; perimeter += std::sqrt(dx*dx + dy*dy); prev = p`,
with `float` differences, products, sum and root, and a `double` total. -/
def arcStep (st : (ℚ × ℚ) × ℚ) (pt : Point) : (ℚ × ℚ) × ℚ :=
  let p := toPoint2f pt
  let dx := f32 (p.1 - st.1.1)
  let dy := f32 (p.2 - st.1.2)
  (p, f64 (st.2 + sqrt32 (f32 (f32 (dx * dx) + f32 (dy * dy)))))

/-- Perimeter `cv::arcLength(curve, is_closed)` of a non-empty curve (the
program calls it only after `contourArea` has accepted the same points): `0`
for a single point, otherwise the accumulated segment lengths, starting from
the last point for a closed curve and from the first one for an open curve. -/
def arcLength (curve : List Point) (is_closed : Bool) : ℚ :=
  let count := curve.length
  if count ≤ 1 then 0
  else
    let last := if is_closed then count - 1 else 0
    let prev := toPoint2f (curve.getD last ⟨0, 0⟩)
    (curve.foldl arcStep (prev, 0)).2

/-- Output size chosen by `cv::resize` for an empty `dsize`:
`Size(saturate_cast<int>(ssize.width * fx), saturate_cast<int>(ssize.height * fy))`. -/
def resizeDsize (src : Mat) (fx fy : ℚ) : ℤ × ℤ :=
  (cvRound (f64 (src.cols * fx)), cvRound (f64 (src.rows * fy)))

/-- The call `cv::resize(src, dst, cv::Size(), fx, fy, interpolation)`: the
library asserts that the source is not empty, that both scale factors are
positive and that the computed output size is not empty. -/
def resize (src : Mat) (fx fy : ℚ) (interpolation : Interpolation) :
    Except Fault DisplayImage :=
  if src.cols = 0 ∨ src.rows = 0 then .error .cvAssertion
  else if fx ≤ 0 ∨ fy ≤ 0 then .error .cvAssertion
  else
    let dsize := resizeDsize src fx fy
    if dsize.1 ≤ 0 ∨ dsize.2 ≤ 0 then .error .cvAssertion
    else .ok (.resized src dsize.1 dsize.2 interpolation)

/-- The external routines whose algorithm is not part of the program, with the
two facts about them that the program relies on. -/
structure CvLib where
  /-- Polygon simplification `cv::approxPolyDP(curve, out, epsilon, closed)`. -/
  approxPolyDP : List Point → ℚ → Bool → List Point
  /-- The simplification of a non-empty curve keeps at least one point. -/
  approxPolyDP_ne_nil : ∀ curve epsilon closed, curve ≠ [] →
    approxPolyDP curve epsilon closed ≠ []
  /-- Centre and `float` radius from `cv::minEnclosingCircle`. -/
  minEnclosingCircle : List Point → (ℚ × ℚ) × ℚ
  /-- Moments from `cv::moments`. -/
  moments : List Point → Moments
  /-- The zeroth moment of an outline is its area, as `cv::contourArea`
  returns it (both are the shoelace sum in `double`; the coordinates are in
  the range in which their conversion to `float` by `contourArea` is exact). -/
  moments_m00 : ∀ contour area, (∀ p ∈ contour, |p.x| < 2 ^ 24 ∧ |p.y| < 2 ^ 24) →
    contourArea contour = .ok area → (moments contour).m00 = area

/-! ## The program -/

/-- The scan of lines 34–43: every sample is `0` or `255`. -/
def allPixelsZeroOrMax (sourceImage : Mat) : Bool :=
  (List.range sourceImage.rows).all fun r =>
    (List.range sourceImage.cols).all fun c =>
      let val := sourceImage.px r c
      !(val ≠ 0 && val ≠ 255)

/-- The function `getScaledDisplayImage` (lines 12–51). -/
def getScaledDisplayImage (sourceImage : Mat) (targetWidth targetHeight : ℤ) :
    Except Fault DisplayImage := do
  if sourceImage.empty || targetWidth ≤ 0 || targetHeight ≤ 0 then
    return (if sourceImage.empty then .emptyMat else .clone sourceImage)
  let originalWidth : ℚ := f64 sourceImage.cols
  let originalHeight : ℚ := f64 sourceImage.rows
  if originalWidth = 0 ∨ originalHeight = 0 then
    return .clone sourceImage
  let scaleW ← fdiv64 (f64 targetWidth) originalWidth
  let scaleH ← fdiv64 (f64 targetHeight) originalHeight
  let scaleFactor := min scaleW scaleH
  let interpolationMethod :=
    if sourceImage.type = CV_8UC1 ∧ allPixelsZeroOrMax sourceImage then
      Interpolation.INTER_NEAREST
    else Interpolation.INTER_LINEAR
  resize sourceImage scaleFactor scaleFactor interpolationMethod

/-- The 4-vertex branch of `getShapeType` (lines 62–73) on the bounding box. -/
def squareOrRectangle (boundingBox : Rect) : Except Fault String := do
  let aspectRatio ←
    if boundingBox.height > 0 then
      fdiv32 (f32 boundingBox.width) (f32 boundingBox.height)
    else pure 0
  if aspectRatio ≥ d_0_95 ∧ aspectRatio ≤ d_1_05 then
    return "Square"
  else
    return "Rectangle"

/-- The function `getShapeType` (lines 53–108). -/
def getShapeType (cv : CvLib) (approx : List Point) : Except Fault String := do
  let vertices := approx.length
  let area ← contourArea approx
  if vertices = 3 then
    return "Triangle"
  else if vertices = 4 then
    squareOrRectangle (boundingRect approx)
  else if vertices > 4 then
    let perimeter_shape := arcLength approx true
    let isCircle ←
      if perimeter_shape > 0 ∧ area > 0 then do
        let circularity ←
          fdiv64 (f64 (f64 (4 * CV_PI) * area)) (f64 (perimeter_shape * perimeter_shape))
        pure (decide (circularity > d_0_85 ∧ circularity < d_1_15))
      else pure false
    let isCircle ←
      if !isCircle then do
        let radius_mc := (cv.minEnclosingCircle approx).2
        if radius_mc > 0 then do
          let circleArea_mc := f64 (f64 (CV_PI * radius_mc) * radius_mc)
          if circleArea_mc > 0 then do
            let ratio ← fdiv64 area circleArea_mc
            pure (decide (|f64 (1 - ratio)| < d_0_15))
          else pure false
        else pure false
      else pure isCircle
    if isCircle then
      return "Circle"
    else if vertices = 5 then return "Pentagon"
    else if vertices = 6 then return "Hexagon"
    else return "Polygon"
  else
    return "Unknown"

/-- The label anchor of lines 174–183: the centroid from the moments when
`m00` is not zero, else from the bounding box of the outline. -/
def labelAnchor (M : Moments) (contour : List Point) : Except Fault Point := do
  if M.m00 ≠ 0 then
    let cX := truncToInt (← fdiv64 M.m10 M.m00)
    let cY := truncToInt (← fdiv64 M.m01 M.m00)
    return ⟨cX - 20, cY⟩
  else
    let br := boundingRect contour
    return ⟨br.x + Int.tdiv br.width 2 - 20, br.y + Int.tdiv br.height 2⟩

/-- What one iteration of the loop produces for an outline it keeps: the report
line (index, vertex count, label, area), the outline drawn and the text placed. -/
structure Emitted where
  index : ℕ
  vertices : ℕ
  shape : String
  area : ℚ
  drawn : List Point
  anchor : Point

/-- The body of the loop of `main` (lines 159–183) for outline `i`; `none` is
a `continue`. -/
def mainLoopBody (cv : CvLib) (i : ℕ) (contour : List Point) :
    Except Fault (Option Emitted) := do
  let area ← contourArea contour
  if area < 500 then
    return none
  let perimeter := arcLength contour true
  if perimeter = 0 then
    return none
  let approxPoly := cv.approxPolyDP contour (f64 (d_0_01 * perimeter)) true
  let shape ← getShapeType cv approxPoly
  let anchor ← labelAnchor (cv.moments contour) contour
  return some ⟨i, approxPoly.length, shape, area, contour, anchor⟩

/-- The loop of `main` (lines 158–184) from index `i` on: the emissions in the
order in which they are produced. -/
def mainLoop (cv : CvLib) : ℕ → List (List Point) → Except Fault (List Emitted)
  | _, [] => pure []
  | i, contour :: rest => do
    let out ← mainLoopBody cv i contour
    let more ← mainLoop cv (i + 1) rest
    match out with
    | none => pure more
    | some e => pure (e :: more)

/-- One step of the polygon moment sums (Green's formula) on integer points:
the last point seen and the sums for the area, for `x` and for `y`. -/
def momentStep (st : Point × ℤ × ℤ × ℤ) (p : Point) : Point × ℤ × ℤ × ℤ :=
  let dxy := st.1.x * p.y - p.x * st.1.y
  (p, st.2.1 + dxy, st.2.2.1 + dxy * (st.1.x + p.x), st.2.2.2 + dxy * (st.1.y + p.y))

/-- Polygon moments for concrete runs: `m00` is the area, `m10` and `m01` are
the first moments of the polygon. -/
def sampleMoments (contour : List Point) : Moments :=
  match contour.getLast? with
  | none => ⟨0, 0, 0⟩
  | some last =>
    let s := contour.foldl momentStep (last, 0, 0, 0)
    let sgn : ℚ := if 0 ≤ s.2.1 then 1 else -1
    ⟨match contourArea contour with
      | .ok area => area
      | .error _ => 0,
     sgn * s.2.2.1 / 6, sgn * s.2.2.2 / 6⟩

/-- A library instance for concrete runs: no simplification, zero enclosing
radius, polygon moments. -/
def sampleCv : CvLib where
  approxPolyDP := fun curve _ _ => curve
  approxPolyDP_ne_nil := fun _ _ _ h => h
  minEnclosingCircle := fun _ => ((0, 0), 0)
  moments := sampleMoments
  moments_m00 := by
    intro contour area _ h
    unfold sampleMoments
    cases hl : contour.getLast? with
    | none =>
      unfold contourArea at h
      rw [hl] at h
      cases h
    | some last =>
      simp only [h]

/-! ## Facts about the floating-point model -/

theorem log2Fuel_eq : ∀ (fuel n : ℕ), n ≤ fuel → log2Fuel fuel n = Nat.log2 n
  | 0, n, h => by
    have : n = 0 := by omega
    subst this
    simp [log2Fuel, Nat.log2_zero]
  | fuel + 1, n, h => by
    rw [log2Fuel, Nat.log2]
    by_cases h2 : 2 ≤ n
    · rw [if_pos h2, if_pos h2, log2Fuel_eq fuel (n / 2) (by omega)]
    · rw [if_neg h2, if_neg h2]

theorem natLog2_eq (n : ℕ) : natLog2 n = Nat.log2 n := log2Fuel_eq n n le_rfl

theorem natLog2_le {n : ℕ} (h : n ≠ 0) : 2 ^ natLog2 n ≤ n := by
  rw [natLog2_eq]; exact Nat.log2_self_le h

theorem lt_natLog2 (n : ℕ) : n < 2 ^ (natLog2 n + 1) := by
  rw [natLog2_eq]; exact Nat.lt_log2_self

theorem two_zpow_pos (k : ℤ) : (0 : ℚ) < (2 : ℚ) ^ k := zpow_pos (by norm_num) k

/-- The binary exponent brackets a positive rational. -/
theorem ilog2_spec {q : ℚ} (hq : 0 < q) :
    (2 : ℚ) ^ ilog2 q ≤ q ∧ q < (2 : ℚ) ^ (ilog2 q + 1) := by
  have hn : 0 < q.num := Rat.num_pos.mpr hq
  have hn0 : q.num.natAbs ≠ 0 := by omega
  have hd0 : q.den ≠ 0 := q.den_nz
  have hdq : (0 : ℚ) < q.den := by exact_mod_cast Nat.pos_of_ne_zero hd0
  have hqe : (q.num.natAbs : ℚ) / (q.den : ℚ) = q := by
    have h1 : (q.num.natAbs : ℚ) = (q.num : ℚ) := by
      rw [← Int.cast_natCast, Int.natAbs_of_nonneg hn.le]
    rw [h1]
    exact Rat.num_div_den q
  have a1 : ((2 : ℚ) ^ natLog2 q.num.natAbs) ≤ (q.num.natAbs : ℚ) := by
    exact_mod_cast natLog2_le hn0
  have a2 : (q.num.natAbs : ℚ) < (2 : ℚ) ^ (natLog2 q.num.natAbs + 1) := by
    exact_mod_cast lt_natLog2 q.num.natAbs
  have b1 : ((2 : ℚ) ^ natLog2 q.den) ≤ (q.den : ℚ) := by
    exact_mod_cast natLog2_le hd0
  have b2 : (q.den : ℚ) < (2 : ℚ) ^ (natLog2 q.den + 1) := by
    exact_mod_cast lt_natLog2 q.den
  have two0 : (2 : ℚ) ≠ 0 := by norm_num
  have hNpos : (0 : ℚ) ≤ (q.num.natAbs : ℚ) := by positivity
  -- q lies between 2 ^ (e0 - 1) and 2 ^ (e0 + 1)
  have lo : (2 : ℚ) ^ ((natLog2 q.num.natAbs : ℤ) - (natLog2 q.den : ℤ) - 1) ≤ q := by
    have e : (2 : ℚ) ^ ((natLog2 q.num.natAbs : ℤ) - (natLog2 q.den : ℤ) - 1)
        = (2 : ℚ) ^ natLog2 q.num.natAbs / (2 : ℚ) ^ (natLog2 q.den + 1) := by
      rw [sub_sub, zpow_sub₀ two0]
      norm_cast
    calc (2 : ℚ) ^ ((natLog2 q.num.natAbs : ℤ) - (natLog2 q.den : ℤ) - 1)
        = (2 : ℚ) ^ natLog2 q.num.natAbs / (2 : ℚ) ^ (natLog2 q.den + 1) := e
      _ ≤ (q.num.natAbs : ℚ) / (q.den : ℚ) := by
          rw [div_le_div_iff₀ (by positivity) hdq]
          calc (2 : ℚ) ^ natLog2 q.num.natAbs * q.den
              ≤ (q.num.natAbs : ℚ) * q.den := mul_le_mul_of_nonneg_right a1 hdq.le
            _ ≤ (q.num.natAbs : ℚ) * (2 : ℚ) ^ (natLog2 q.den + 1) :=
                mul_le_mul_of_nonneg_left b2.le hNpos
      _ = q := hqe
  have hi : q < (2 : ℚ) ^ ((natLog2 q.num.natAbs : ℤ) - (natLog2 q.den : ℤ) + 1) := by
    have e : (2 : ℚ) ^ ((natLog2 q.num.natAbs : ℤ) - (natLog2 q.den : ℤ) + 1)
        = (2 : ℚ) ^ (natLog2 q.num.natAbs + 1) / (2 : ℚ) ^ natLog2 q.den := by
      have : (natLog2 q.num.natAbs : ℤ) - (natLog2 q.den : ℤ) + 1
          = ((natLog2 q.num.natAbs + 1 : ℕ) : ℤ) - ((natLog2 q.den : ℕ) : ℤ) := by
        push_cast; ring
      rw [this, zpow_sub₀ two0]
      norm_cast
    calc q = (q.num.natAbs : ℚ) / (q.den : ℚ) := hqe.symm
      _ < (2 : ℚ) ^ (natLog2 q.num.natAbs + 1) / (2 : ℚ) ^ natLog2 q.den := by
          rw [div_lt_div_iff₀ hdq (by positivity)]
          calc (q.num.natAbs : ℚ) * (2 : ℚ) ^ natLog2 q.den
              ≤ (q.num.natAbs : ℚ) * q.den := mul_le_mul_of_nonneg_left b1 hNpos
            _ < (2 : ℚ) ^ (natLog2 q.num.natAbs + 1) * q.den :=
                mul_lt_mul_of_pos_right a2 hdq
      _ = (2 : ℚ) ^ ((natLog2 q.num.natAbs : ℤ) - (natLog2 q.den : ℤ) + 1) := e.symm
  unfold ilog2
  simp only
  split_ifs with hc
  · exact ⟨hc, hi⟩
  · refine ⟨lo, ?_⟩
    rw [sub_add_cancel]
    exact not_le.mp hc

theorem zpow_ilog2_le {q : ℚ} (hq : 0 < q) : (2 : ℚ) ^ ilog2 q ≤ q := (ilog2_spec hq).1

theorem lt_zpow_ilog2_succ {q : ℚ} (hq : 0 < q) : q < (2 : ℚ) ^ (ilog2 q + 1) :=
  (ilog2_spec hq).2

/-- The binary exponent is the floor of the base-2 logarithm. -/
theorem ilog2_eq_log {q : ℚ} (hq : 0 < q) : ilog2 q = Int.log 2 q := by
  have h1 : ilog2 q ≤ Int.log 2 q :=
    (Int.zpow_le_iff_le_log (by norm_num) hq).mp (zpow_ilog2_le hq)
  have h2 : Int.log 2 q < ilog2 q + 1 :=
    (Int.lt_zpow_iff_log_lt (by norm_num) hq).mp (lt_zpow_ilog2_succ hq)
  omega

theorem isqrtGo_spec (n : ℕ) : ∀ (k r : ℕ), r * r ≤ n → n < (r + 2 ^ k) * (r + 2 ^ k) →
    isqrtGo n k r * isqrtGo n k r ≤ n ∧ n < (isqrtGo n k r + 1) * (isqrtGo n k r + 1)
  | 0, r, h1, h2 => by
    simpa [isqrtGo] using And.intro h1 h2
  | k + 1, r, h1, h2 => by
    rw [isqrtGo]
    by_cases hc : (r + 2 ^ k) * (r + 2 ^ k) ≤ n
    · rw [if_pos hc]
      apply isqrtGo_spec n k _ hc
      have : r + 2 ^ k + 2 ^ k = r + 2 ^ (k + 1) := by rw [pow_succ]; ring
      rw [this]; exact h2
    · rw [if_neg hc]
      exact isqrtGo_spec n k r h1 (not_le.mp hc)

/-- The bitwise root is the floor of the square root. -/
theorem isqrt_eq_sqrt (n : ℕ) : isqrt n = Nat.sqrt n := by
  have h0 : n < (0 + 2 ^ (natLog2 n / 2 + 1)) * (0 + 2 ^ (natLog2 n / 2 + 1)) := by
    rw [zero_add, ← pow_add]
    calc n < 2 ^ (natLog2 n + 1) := lt_natLog2 n
      _ ≤ 2 ^ (natLog2 n / 2 + 1 + (natLog2 n / 2 + 1)) :=
        Nat.pow_le_pow_right (by norm_num) (by omega)
  have h := isqrtGo_spec n (natLog2 n / 2 + 1) 0 (by simp) h0
  exact Nat.eq_sqrt.mpr h

theorem roundHalfEven_floor_le (q : ℚ) : ⌊q⌋ ≤ roundHalfEven q := by
  unfold roundHalfEven
  simp only
  split_ifs <;> omega

theorem roundHalfEven_le_floor_add_one (q : ℚ) : roundHalfEven q ≤ ⌊q⌋ + 1 := by
  unfold roundHalfEven
  simp only
  split_ifs <;> omega

theorem roundHalfEven_le_add_half (q : ℚ) : (roundHalfEven q : ℚ) ≤ q + 1 / 2 := by
  have h1 : (⌊q⌋ : ℚ) ≤ q := Int.floor_le q
  unfold roundHalfEven
  simp only
  split_ifs with h2 h3 h4
  · linarith
  · push_cast; linarith
  · linarith
  · push_cast; linarith

theorem sub_half_le_roundHalfEven (q : ℚ) : q - 1 / 2 ≤ (roundHalfEven q : ℚ) := by
  have h1 : q < (⌊q⌋ : ℚ) + 1 := Int.lt_floor_add_one q
  unfold roundHalfEven
  simp only
  split_ifs with h2 h3 h4
  · linarith
  · push_cast; linarith
  · linarith
  · push_cast; linarith

theorem roundHalfEven_intCast (z : ℤ) : roundHalfEven (z : ℚ) = z := by
  unfold roundHalfEven
  simp

theorem roundHalfEven_mono {a b : ℚ} (h : a ≤ b) : roundHalfEven a ≤ roundHalfEven b := by
  rcases (Int.floor_mono h).lt_or_eq with hlt | heq
  · have h1 := roundHalfEven_le_floor_add_one a
    have h2 := roundHalfEven_floor_le b
    omega
  · unfold roundHalfEven
    simp only
    rw [heq]
    split_ifs <;> first | omega | (exfalso; linarith)

/-- A value below the midpoint above an integer does not round past it. -/
theorem roundHalfEven_le_of_lt {q : ℚ} {z : ℤ} (h : q < z + 1 / 2) : roundHalfEven q ≤ z := by
  have h1 := roundHalfEven_le_add_half q
  have h2 : ((roundHalfEven q : ℤ) : ℚ) < ((z + 1 : ℤ) : ℚ) := by push_cast; linarith
  have h3 : roundHalfEven q < z + 1 := by exact_mod_cast h2
  omega


theorem fround_zero (p : ℕ) : fround p 0 = 0 := by simp [fround]

/-- The scaled significand of a positive number is at least `2 ^ (p - 1)`. -/
theorem significand_ge {p : ℕ} {q : ℚ} (hq : 0 < q) :
    (2 : ℚ) ^ ((p : ℤ) - 1) ≤ q / (2 : ℚ) ^ (ilog2 q - ((p : ℤ) - 1)) := by
  rw [le_div_iff₀ (two_zpow_pos _), ← zpow_add₀ (by norm_num : (2 : ℚ) ≠ 0)]
  have : (p : ℤ) - 1 + (ilog2 q - ((p : ℤ) - 1)) = ilog2 q := by ring
  rw [this]
  exact zpow_ilog2_le hq

theorem fround_pos {p : ℕ} (hp : 1 ≤ p) {q : ℚ} (hq : 0 < q) : 0 < fround p q := by
  unfold fround
  rw [if_neg hq.ne']
  simp only [abs_of_pos hq]
  apply mul_pos _ (two_zpow_pos _)
  have h1 := significand_ge (p := p) hq
  have h2 : (1 : ℚ) ≤ (2 : ℚ) ^ ((p : ℤ) - 1) := by
    apply one_le_zpow₀ (by norm_num)
    omega
  have h3 : roundHalfEven ((1 : ℤ) : ℚ) ≤ roundHalfEven (q / (2 : ℚ) ^ (ilog2 q - ((p : ℤ) - 1))) :=
    roundHalfEven_mono (by push_cast; linarith)
  rw [roundHalfEven_intCast] at h3
  exact_mod_cast (by omega : 0 < roundHalfEven (q / (2 : ℚ) ^ (ilog2 q - ((p : ℤ) - 1))))

theorem fround_neg_of_neg {p : ℕ} (hp : 1 ≤ p) {q : ℚ} (hq : q < 0) : fround p q < 0 := by
  unfold fround
  rw [if_neg hq.ne]
  simp only [abs_of_neg hq]
  apply mul_neg_of_neg_of_pos _ (two_zpow_pos _)
  have h1 := significand_ge (p := p) (neg_pos.mpr hq)
  have h2 : (1 : ℚ) ≤ (2 : ℚ) ^ ((p : ℤ) - 1) := by
    apply one_le_zpow₀ (by norm_num)
    omega
  have h3 : roundHalfEven (q / (2 : ℚ) ^ (ilog2 (-q) - ((p : ℤ) - 1))) ≤ roundHalfEven ((-1 : ℤ) : ℚ) := by
    apply roundHalfEven_mono
    rw [neg_div] at h1
    push_cast; linarith
  rw [roundHalfEven_intCast] at h3
  exact_mod_cast (by omega : roundHalfEven (q / (2 : ℚ) ^ (ilog2 (-q) - ((p : ℤ) - 1))) < 0)

theorem fround_nonneg {p : ℕ} (hp : 1 ≤ p) {q : ℚ} (hq : 0 ≤ q) : 0 ≤ fround p q := by
  rcases hq.lt_or_eq with h | h
  · exact (fround_pos hp h).le
  · rw [← h, fround_zero]

theorem fround_eq_zero_iff {p : ℕ} (hp : 1 ≤ p) {q : ℚ} : fround p q = 0 ↔ q = 0 := by
  constructor
  · intro h
    rcases lt_trichotomy q 0 with h1 | h1 | h1
    · exact absurd h (fround_neg_of_neg hp h1).ne
    · exact h1
    · exact absurd h (fround_pos hp h1).ne'
  · rintro rfl
    exact fround_zero p


/-- Upper error bound of rounding: at most half a unit in the last place,
which is at most `q * 2 ^ (-p)`. -/
theorem fround_le_mul {p : ℕ} {q : ℚ} (hq : 0 ≤ q) :
    fround p q ≤ q * (1 + (2 : ℚ) ^ (-(p : ℤ))) := by
  rcases hq.lt_or_eq with h | h
  · unfold fround
    rw [if_neg h.ne']
    simp only [abs_of_pos h]
    have hu := two_zpow_pos (ilog2 q - ((p : ℤ) - 1))
    have h1 := roundHalfEven_le_add_half (q / (2 : ℚ) ^ (ilog2 q - ((p : ℤ) - 1)))
    have h2 := mul_le_mul_of_nonneg_right h1 hu.le
    rw [add_mul, div_mul_cancel₀ _ hu.ne'] at h2
    have h3 : (1 : ℚ) / 2 * (2 : ℚ) ^ (ilog2 q - ((p : ℤ) - 1))
        = (2 : ℚ) ^ ilog2 q * (2 : ℚ) ^ (-(p : ℤ)) := by
      rw [← zpow_add₀ (by norm_num : (2 : ℚ) ≠ 0)]
      have : ilog2 q - ((p : ℤ) - 1) = (ilog2 q + -(p : ℤ)) + 1 := by ring
      rw [this, zpow_add_one₀ (by norm_num : (2 : ℚ) ≠ 0)]
      ring
    rw [h3] at h2
    have h4 := mul_le_mul_of_nonneg_right (zpow_ilog2_le h) (two_zpow_pos (-(p : ℤ))).le
    linarith
  · rw [← h, fround_zero]; simp

/-- Integers of fewer than `p` bits are representable. -/
theorem fround_intCast {p : ℕ} (n : ℤ) (hn : |(n : ℚ)| < (2 : ℚ) ^ (p : ℤ)) :
    fround p (n : ℚ) = n := by
  by_cases h0 : (n : ℚ) = 0
  · rw [h0, fround_zero]
  · unfold fround
    rw [if_neg h0]
    simp only
    have hpos : 0 < |(n : ℚ)| := abs_pos.mpr h0
    have hlog : ilog2 |(n : ℚ)| < (p : ℤ) := by
      rw [ilog2_eq_log hpos]
      exact (Int.lt_zpow_iff_log_lt (by norm_num) hpos).mp hn
    obtain ⟨k, hk⟩ : ∃ k : ℕ, (k : ℤ) = (p : ℤ) - 1 - ilog2 |(n : ℚ)| :=
      ⟨((p : ℤ) - 1 - ilog2 |(n : ℚ)|).toNat, Int.toNat_of_nonneg (by omega)⟩
    have hu : ilog2 |(n : ℚ)| - ((p : ℤ) - 1) = -(k : ℤ) := by omega
    rw [hu, zpow_neg, zpow_natCast, div_inv_eq_mul]
    have : (n : ℚ) * (2 : ℚ) ^ k = ((n * 2 ^ k : ℤ) : ℚ) := by push_cast; ring
    rw [this, roundHalfEven_intCast]
    push_cast
    field_simp

theorem f64_intCast (n : ℤ) (hn : |n| < 2 ^ 53) : f64 (n : ℚ) = n := by
  apply fround_intCast
  have : ((|n| : ℤ) : ℚ) < ((2 ^ 53 : ℤ) : ℚ) := by exact_mod_cast hn
  push_cast at this
  exact_mod_cast this

theorem f64_natCast (n : ℕ) (hn : n < 2 ^ 53) : f64 (n : ℚ) = n := by
  have := f64_intCast (n : ℤ) (by rw [abs_of_nonneg (by positivity)]; exact_mod_cast hn)
  simpa using this

theorem f32_pos {q : ℚ} (h : 0 < q) : 0 < f32 q := fround_pos (by norm_num) h
theorem f64_pos {q : ℚ} (h : 0 < q) : 0 < f64 q := fround_pos (by norm_num) h
theorem f32_nonneg {q : ℚ} (h : 0 ≤ q) : 0 ≤ f32 q := fround_nonneg (by norm_num) h
theorem f64_nonneg {q : ℚ} (h : 0 ≤ q) : 0 ≤ f64 q := fround_nonneg (by norm_num) h
theorem f32_eq_zero_iff {q : ℚ} : f32 q = 0 ↔ q = 0 := fround_eq_zero_iff (by norm_num)
theorem f64_eq_zero_iff {q : ℚ} : f64 q = 0 ↔ q = 0 := fround_eq_zero_iff (by norm_num)

theorem ilog2_mono {x y : ℚ} (hx : 0 < x) (hxy : x ≤ y) : ilog2 x ≤ ilog2 y := by
  rw [ilog2_eq_log hx, ilog2_eq_log (hx.trans_le hxy)]
  exact Int.log_mono_right hx hxy

/-- A positive number rounds to at least the power of two below it. -/
theorem zpow_ilog2_le_fround {p : ℕ} (hp : 1 ≤ p) {y : ℚ} (hy : 0 < y) :
    (2 : ℚ) ^ ilog2 y ≤ fround p y := by
  unfold fround
  rw [if_neg hy.ne']
  simp only [abs_of_pos hy]
  have hu := two_zpow_pos (ilog2 y - ((p : ℤ) - 1))
  obtain ⟨k, hk⟩ : ∃ k : ℕ, (k : ℤ) = (p : ℤ) - 1 := ⟨p - 1, by omega⟩
  have h1 := significand_ge (p := p) hy
  rw [← hk, zpow_natCast] at h1
  have h2 : roundHalfEven (((2 ^ k : ℤ)) : ℚ) ≤
      roundHalfEven (y / (2 : ℚ) ^ (ilog2 y - ((p : ℤ) - 1))) :=
    roundHalfEven_mono (by push_cast; rw [← hk]; exact h1)
  rw [roundHalfEven_intCast] at h2
  have h3 : ((2 : ℚ) ^ k) ≤ (roundHalfEven (y / (2 : ℚ) ^ (ilog2 y - ((p : ℤ) - 1))) : ℚ) := by
    exact_mod_cast h2
  have h4 := mul_le_mul_of_nonneg_right h3 hu.le
  have h5 : (2 : ℚ) ^ k * (2 : ℚ) ^ (ilog2 y - ((p : ℤ) - 1)) = (2 : ℚ) ^ ilog2 y := by
    rw [← zpow_natCast, ← zpow_add₀ (by norm_num : (2 : ℚ) ≠ 0), hk]
    congr 1
    ring
  rw [h5] at h4
  exact h4

/-- A positive number rounds to at most the power of two above it. -/
theorem fround_le_zpow_succ {p : ℕ} {x : ℚ} (hx : 0 < x) :
    fround p x ≤ (2 : ℚ) ^ (ilog2 x + 1) := by
  unfold fround
  rw [if_neg hx.ne']
  simp only [abs_of_pos hx]
  have hu := two_zpow_pos (ilog2 x - ((p : ℤ) - 1))
  have h5 : (2 : ℚ) ^ p * (2 : ℚ) ^ (ilog2 x - ((p : ℤ) - 1)) = (2 : ℚ) ^ (ilog2 x + 1) := by
    rw [← zpow_natCast, ← zpow_add₀ (by norm_num : (2 : ℚ) ≠ 0)]
    congr 1
    ring
  have h1 : x / (2 : ℚ) ^ (ilog2 x - ((p : ℤ) - 1)) ≤ (((2 ^ p : ℤ)) : ℚ) := by
    rw [div_le_iff₀ hu]
    push_cast
    rw [h5]
    exact (lt_zpow_ilog2_succ hx).le
  have h2 := roundHalfEven_mono h1
  rw [roundHalfEven_intCast] at h2
  have h3 : (roundHalfEven (x / (2 : ℚ) ^ (ilog2 x - ((p : ℤ) - 1))) : ℚ) ≤ (2 : ℚ) ^ p := by
    exact_mod_cast h2
  have h4 := mul_le_mul_of_nonneg_right h3 hu.le
  rw [h5] at h4
  exact h4

/-- Rounding is monotone on positive numbers. -/
theorem fround_mono {p : ℕ} (hp : 1 ≤ p) {x y : ℚ} (hx : 0 < x) (hxy : x ≤ y) :
    fround p x ≤ fround p y := by
  have hy : 0 < y := hx.trans_le hxy
  rcases (ilog2_mono hx hxy).lt_or_eq with hlt | heq
  · calc fround p x ≤ (2 : ℚ) ^ (ilog2 x + 1) := fround_le_zpow_succ hx
      _ ≤ (2 : ℚ) ^ ilog2 y := zpow_le_zpow_right₀ (by norm_num) (by omega)
      _ ≤ fround p y := zpow_ilog2_le_fround hp hy
  · unfold fround
    rw [if_neg hx.ne', if_neg hy.ne']
    simp only [abs_of_pos hx, abs_of_pos hy, heq]
    have hu := two_zpow_pos (ilog2 y - ((p : ℤ) - 1))
    apply mul_le_mul_of_nonneg_right _ hu.le
    have : roundHalfEven (x / (2 : ℚ) ^ (ilog2 y - ((p : ℤ) - 1))) ≤
        roundHalfEven (y / (2 : ℚ) ^ (ilog2 y - ((p : ℤ) - 1))) :=
      roundHalfEven_mono (div_le_div_of_nonneg_right hxy hu.le)
    exact_mod_cast this

theorem f32_mono {x y : ℚ} (hx : 0 < x) (hxy : x ≤ y) : f32 x ≤ f32 y :=
  fround_mono (by norm_num) hx hxy

theorem f32_intCast (n : ℤ) (hn : |n| < 2 ^ 24) : f32 (n : ℚ) = n := by
  apply fround_intCast
  have : ((|n| : ℤ) : ℚ) < ((2 ^ 24 : ℤ) : ℚ) := by exact_mod_cast hn
  push_cast at this
  exact_mod_cast this

theorem ok_bind {α β : Type} (a : α) (f : α → Except Fault β) :
    (Except.ok a >>= f) = f a := rfl

theorem fdiv64_ok {a b : ℚ} (hb : b ≠ 0) : fdiv64 a b = .ok (f64 (a / b)) := by
  simp [fdiv64, hb]

theorem fdiv32_ok {a b : ℚ} (hb : b ≠ 0) : fdiv32 a b = .ok (f32 (a / b)) := by
  simp [fdiv32, hb]

/-! ## The display scaler -/

theorem getScaledDisplayImage_eq_resize (sourceImage : Mat) (targetWidth targetHeight : ℤ)
    (hc : 1 ≤ sourceImage.cols) (hr : 1 ≤ sourceImage.rows)
    (hcb : sourceImage.cols < 2 ^ 31) (hrb : sourceImage.rows < 2 ^ 31)
    (hw : 0 < targetWidth) (hh : 0 < targetHeight)
    (hwb : targetWidth < 2 ^ 31) (hhb : targetHeight < 2 ^ 31) :
    getScaledDisplayImage sourceImage targetWidth targetHeight =
      resize sourceImage
        (min (f64 (targetWidth / sourceImage.cols)) (f64 (targetHeight / sourceImage.rows)))
        (min (f64 (targetWidth / sourceImage.cols)) (f64 (targetHeight / sourceImage.rows)))
        (if sourceImage.type = CV_8UC1 ∧ allPixelsZeroOrMax sourceImage then
          Interpolation.INTER_NEAREST else Interpolation.INTER_LINEAR) := by
  have e1 : f64 (sourceImage.cols : ℚ) = sourceImage.cols := f64_natCast _ (by omega)
  have e2 : f64 (sourceImage.rows : ℚ) = sourceImage.rows := f64_natCast _ (by omega)
  have e3 : f64 (targetWidth : ℚ) = targetWidth :=
    f64_intCast _ (by rw [abs_of_pos hw]; omega)
  have e4 : f64 (targetHeight : ℚ) = targetHeight :=
    f64_intCast _ (by rw [abs_of_pos hh]; omega)
  have c0 : (sourceImage.cols : ℚ) ≠ 0 := by exact_mod_cast (by omega : sourceImage.cols ≠ 0)
  have r0 : (sourceImage.rows : ℚ) ≠ 0 := by exact_mod_cast (by omega : sourceImage.rows ≠ 0)
  have hemp : sourceImage.empty = false := by
    simp [Mat.empty]; omega
  unfold getScaledDisplayImage
  simp [hemp, e1, e2, e3, e4, c0, r0, fdiv64, not_le.mpr hw, not_le.mpr hh]
  rfl

/-- Scaling an extent `n` by a factor that is at most the rounded quotient
`T / n` and rounding to a pixel count never exceeds `T`. -/
theorem scaled_extent_le (n : ℕ) (T : ℤ) (s : ℚ) (hn : 1 ≤ n)
    (hT : 0 < T) (hTb : T < 2 ^ 31) (hs0 : 0 ≤ s) (hs : s ≤ f64 ((T : ℚ) / n)) :
    cvRound (f64 ((n : ℚ) * s)) ≤ T := by
  have hnq : (0 : ℚ) < n := by exact_mod_cast (by omega : 0 < n)
  have hTq : (0 : ℚ) < T := by exact_mod_cast hT
  have hTb' : (T : ℚ) ≤ 2 ^ 31 := by exact_mod_cast hTb.le
  have hε : (2 : ℚ) ^ (-((53 : ℕ) : ℤ)) = 1 / 9007199254740992 := by norm_num
  have h1 : f64 ((T : ℚ) / n) ≤ (T : ℚ) / n * (1 + 1 / 9007199254740992) := by
    have := fround_le_mul (p := 53) (q := (T : ℚ) / n) (by positivity)
    rwa [hε] at this
  have h2 : (n : ℚ) * s ≤ T * (1 + 1 / 9007199254740992) := by
    have := mul_le_mul_of_nonneg_left (hs.trans h1) hnq.le
    have e : (n : ℚ) * ((T : ℚ) / n * (1 + 1 / 9007199254740992))
        = T * (1 + 1 / 9007199254740992) := by field_simp; ring
    linarith
  have h3 : f64 ((n : ℚ) * s) ≤ (n : ℚ) * s * (1 + 1 / 9007199254740992) := by
    have := fround_le_mul (p := 53) (q := (n : ℚ) * s) (by positivity)
    rwa [hε] at this
  have h4 : f64 ((n : ℚ) * s) < (T : ℚ) + 1 / 2 := by
    have : (n : ℚ) * s * (1 + 1 / 9007199254740992)
        ≤ T * (1 + 1 / 9007199254740992) * (1 + 1 / 9007199254740992) :=
      mul_le_mul_of_nonneg_right h2 (by norm_num)
    nlinarith
  exact roundHalfEven_le_of_lt h4

/-- C5: for a non-empty image and a positive target box (all extents being
32-bit `int` values), the output size that `getScaledDisplayImage` requests from
`cv::resize`, `(cvRound (cols * s), cvRound (rows * s))` with the single factor
`s = min (targetWidth / cols) (targetHeight / rows)` in `double` arithmetic, is at
most `targetWidth` wide and `targetHeight` high; the call is exactly that resize,
and every image it returns has that size. -/
theorem getScaledDisplayImage_fits (sourceImage : Mat) (targetWidth targetHeight : ℤ)
    (hc : 1 ≤ sourceImage.cols) (hr : 1 ≤ sourceImage.rows)
    (hcb : sourceImage.cols < 2 ^ 31) (hrb : sourceImage.rows < 2 ^ 31)
    (hw : 0 < targetWidth) (hh : 0 < targetHeight)
    (hwb : targetWidth < 2 ^ 31) (hhb : targetHeight < 2 ^ 31) :
    (resizeDsize sourceImage
        (min (f64 (targetWidth / sourceImage.cols)) (f64 (targetHeight / sourceImage.rows)))
        (min (f64 (targetWidth / sourceImage.cols)) (f64 (targetHeight / sourceImage.rows)))).1
      ≤ targetWidth ∧
    (resizeDsize sourceImage
        (min (f64 (targetWidth / sourceImage.cols)) (f64 (targetHeight / sourceImage.rows)))
        (min (f64 (targetWidth / sourceImage.cols)) (f64 (targetHeight / sourceImage.rows)))).2
      ≤ targetHeight ∧
    getScaledDisplayImage sourceImage targetWidth targetHeight =
      resize sourceImage
        (min (f64 (targetWidth / sourceImage.cols)) (f64 (targetHeight / sourceImage.rows)))
        (min (f64 (targetWidth / sourceImage.cols)) (f64 (targetHeight / sourceImage.rows)))
        (if sourceImage.type = CV_8UC1 ∧ allPixelsZeroOrMax sourceImage then
          Interpolation.INTER_NEAREST else Interpolation.INTER_LINEAR) ∧
    ∀ out, getScaledDisplayImage sourceImage targetWidth targetHeight = .ok out →
      out.width ≤ targetWidth ∧ out.height ≤ targetHeight := by
  have hqw : (0 : ℚ) ≤ f64 ((targetWidth : ℚ) / sourceImage.cols) :=
    fround_nonneg (by norm_num) (by positivity)
  have hqh : (0 : ℚ) ≤ f64 ((targetHeight : ℚ) / sourceImage.rows) :=
    fround_nonneg (by norm_num) (by positivity)
  have b1 := scaled_extent_le sourceImage.cols targetWidth _ hc hw hwb
    (le_min hqw hqh) (min_le_left _ _)
  have b2 := scaled_extent_le sourceImage.rows targetHeight _ hr hh hhb
    (le_min hqw hqh) (min_le_right _ _)
  have heq := getScaledDisplayImage_eq_resize sourceImage targetWidth targetHeight
    hc hr hcb hrb hw hh hwb hhb
  refine ⟨b1, b2, heq, ?_⟩
  intro out hout
  rw [heq] at hout
  unfold resize at hout
  simp only at hout
  split_ifs at hout <;> (cases hout; exact ⟨b1, b2⟩)

theorem getScaledDisplayImage_fits_witness :
    (resizeDsize ⟨3, 7, CV_8UC1, fun _ _ => 0⟩
        (min (f64 ((800 : ℤ) / (7 : ℕ))) (f64 ((785 : ℤ) / (3 : ℕ))))
        (min (f64 ((800 : ℤ) / (7 : ℕ))) (f64 ((785 : ℤ) / (3 : ℕ))))).1 ≤ 800 ∧
    (resizeDsize ⟨3, 7, CV_8UC1, fun _ _ => 0⟩
        (min (f64 ((800 : ℤ) / (7 : ℕ))) (f64 ((785 : ℤ) / (3 : ℕ))))
        (min (f64 ((800 : ℤ) / (7 : ℕ))) (f64 ((785 : ℤ) / (3 : ℕ))))).2 ≤ 785 :=
  have h := getScaledDisplayImage_fits ⟨3, 7, CV_8UC1, fun _ _ => 0⟩ 800 785
    (by decide) (by decide) (by decide) (by decide) (by decide) (by decide)
    (by decide) (by decide)
  ⟨h.1, h.2.1⟩

/-- C6 at the failing input: a 1000 x 1 image scaled into a 10 x 10 box
requests the output size `(10, 0)`, and `cv::resize` rejects it. -/
theorem getScaledDisplayImage_elongated_fault :
    resizeDsize ⟨1, 1000, CV_8UC1, fun _ _ => 0⟩
        (min (f64 ((10 : ℤ) / (1000 : ℕ))) (f64 ((10 : ℤ) / (1 : ℕ))))
        (min (f64 ((10 : ℤ) / (1000 : ℕ))) (f64 ((10 : ℤ) / (1 : ℕ)))) = (10, 0) ∧
    getScaledDisplayImage ⟨1, 1000, CV_8UC1, fun _ _ => 0⟩ 10 10 = .error .cvAssertion := by
  have hd : resizeDsize ⟨1, 1000, CV_8UC1, fun _ _ => 0⟩
        (min (f64 ((10 : ℤ) / (1000 : ℕ))) (f64 ((10 : ℤ) / (1 : ℕ))))
        (min (f64 ((10 : ℤ) / (1000 : ℕ))) (f64 ((10 : ℤ) / (1 : ℕ)))) = (10, 0) := by
    decide!
  have hs : ¬ (min (f64 ((10 : ℤ) / (1000 : ℕ))) (f64 ((10 : ℤ) / (1 : ℕ))) ≤ 0) := by
    decide!
  refine ⟨hd, ?_⟩
  rw [getScaledDisplayImage_eq_resize _ _ _ (by decide) (by decide) (by decide) (by decide)
    (by decide) (by decide) (by decide) (by decide)]
  unfold resize
  simp only
  rw [hd]
  simp [hs]

/-! ## The shape classifier -/

theorem error_bind {α β : Type} (err : Fault) (f : α → Except Fault β) :
    ((Except.error err : Except Fault α) >>= f) = .error err := rfl

theorem ok_of_toOption {α : Type} {x : Except Fault α} {v : α}
    (h : x.toOption = some v) : x = .ok v := by
  cases x with
  | error err => cases h
  | ok a =>
    simp only [Except.toOption, Option.some.injEq] at h
    rw [h]

/-- The library rejects the empty point list. -/
theorem contourArea_nil : contourArea [] = .error .cvAssertion := rfl

/-- On a non-empty point list `contourArea` returns a value. -/
theorem contourArea_ok {contour : List Point} (h : contour ≠ []) :
    ∃ area, contourArea contour = .ok area := by
  unfold contourArea
  cases hl : contour.getLast? with
  | none => exact absurd (List.getLast?_eq_none_iff.mp hl) h
  | some last => exact ⟨_, rfl⟩

theorem ne_nil_of_contourArea_ok {contour : List Point} {area : ℚ}
    (h : contourArea contour = .ok area) : contour ≠ [] := by
  rintro rfl
  rw [contourArea_nil] at h
  cases h

theorem ne_nil_of_length_pos {approx : List Point} (h : 0 < approx.length) : approx ≠ [] := by
  rintro rfl
  exact absurd h (by simp)

/-- The 4-vertex branch in closed form: it never faults. -/
theorem squareOrRectangle_eq (boundingBox : Rect) :
    squareOrRectangle boundingBox = .ok
      (if 0 < boundingBox.height ∧
          d_0_95 ≤ f32 (f32 boundingBox.width / f32 boundingBox.height) ∧
          f32 (f32 boundingBox.width / f32 boundingBox.height) ≤ d_1_05
        then "Square" else "Rectangle") := by
  unfold squareOrRectangle
  by_cases hh : 0 < boundingBox.height
  · have h0 : f32 (boundingBox.height : ℚ) ≠ 0 :=
      (f32_pos (by exact_mod_cast hh)).ne'
    simp only [hh, fdiv32, h0, if_true, if_false, gt_iff_lt, ge_iff_le, bind, Except.bind, pure,
      Except.pure, true_and]
    split_ifs <;> rfl
  · have hpos : ¬ d_0_95 ≤ 0 := not_le.mpr (f64_pos (by norm_num))
    simp only [hh, if_false, gt_iff_lt, ge_iff_le, bind, Except.bind, pure, Except.pure,
      false_and, hpos]


/-- The branch for more than 4 vertices in closed form: it never faults. -/
theorem getShapeType_many (cv : CvLib) (approx : List Point) (area : ℚ)
    (h : 4 < approx.length) (ha : contourArea approx = .ok area) :
    getShapeType cv approx = .ok
      (if (0 < arcLength approx true ∧ 0 < area ∧
            d_0_85 < f64 (f64 (f64 (4 * CV_PI) * area) /
              f64 (arcLength approx true * arcLength approx true)) ∧
            f64 (f64 (f64 (4 * CV_PI) * area) /
              f64 (arcLength approx true * arcLength approx true)) < d_1_15) ∨
          (0 < (cv.minEnclosingCircle approx).2 ∧
            0 < f64 (f64 (CV_PI * (cv.minEnclosingCircle approx).2) *
              (cv.minEnclosingCircle approx).2) ∧
            |f64 (1 - f64 (area /
              f64 (f64 (CV_PI * (cv.minEnclosingCircle approx).2) *
                (cv.minEnclosingCircle approx).2)))| < d_0_15)
        then "Circle"
        else if approx.length = 5 then "Pentagon"
        else if approx.length = 6 then "Hexagon" else "Polygon") := by
  unfold getShapeType
  rw [ha, ok_bind]
  have h3 : approx.length ≠ 3 := by omega
  have h4 : approx.length ≠ 4 := by omega
  generalize arcLength approx true = p
  generalize area = a
  generalize (cv.minEnclosingCircle approx).2 = r
  generalize approx.length = n at h h3 h4
  simp only [h3, h4, h, if_true, if_false, gt_iff_lt, ge_iff_le]
  have hpp : 0 < p → fdiv64 (f64 (f64 (4 * CV_PI) * a)) (f64 (p * p))
      = .ok (f64 (f64 (f64 (4 * CV_PI) * a) / f64 (p * p))) := by
    intro hp
    apply fdiv64_ok
    rw [Ne, f64_eq_zero_iff]
    exact (mul_pos hp hp).ne'
  have hcc : 0 < f64 (f64 (CV_PI * r) * r) → fdiv64 a (f64 (f64 (CV_PI * r) * r))
      = .ok (f64 (a / f64 (f64 (CV_PI * r) * r))) := fun hc => fdiv64_ok hc.ne'
  by_cases hp : 0 < p <;> by_cases ha : 0 < a <;>
  by_cases ht : (d_0_85 < f64 (f64 (f64 (4 * CV_PI) * a) / f64 (p * p)) ∧
        f64 (f64 (f64 (4 * CV_PI) * a) / f64 (p * p)) < d_1_15) <;>
  by_cases hr : 0 < r <;>
  by_cases hc : 0 < f64 (f64 (CV_PI * r) * r) <;>
  by_cases h2 : |f64 (1 - f64 (a / f64 (f64 (CV_PI * r) * r)))| < d_0_15 <;>
  simp only [hp, ha, ht, hr, hc, h2, hpp, hcc, and_self, and_true, true_and, false_and, and_false,
    or_true, true_or, or_false, false_or, or_self,
    if_true, if_false, ok_bind, pure_bind, decide_True, decide_False, Bool.not_true,
    Bool.not_false, Bool.false_eq_true, decide_eq_true_eq, not_true_eq_false,
    not_false_eq_true] <;>
  first | rfl | (split_ifs <;> rfl)

theorem getShapeType_three (cv : CvLib) (approx : List Point) (h : approx.length = 3) :
    getShapeType cv approx = .ok "Triangle" := by
  obtain ⟨area, ha⟩ := contourArea_ok (ne_nil_of_length_pos (by omega : 0 < approx.length))
  unfold getShapeType
  rw [ha, ok_bind]
  simp only [h, if_true]
  rfl

theorem getShapeType_four (cv : CvLib) (approx : List Point) (h : approx.length = 4) :
    getShapeType cv approx = squareOrRectangle (boundingRect approx) := by
  obtain ⟨area, ha⟩ := contourArea_ok (ne_nil_of_length_pos (by omega : 0 < approx.length))
  unfold getShapeType
  rw [ha, ok_bind]
  simp only [h]
  rfl

theorem getShapeType_few (cv : CvLib) (approx : List Point) (hne : approx ≠ [])
    (h : approx.length < 3) : getShapeType cv approx = .ok "Unknown" := by
  obtain ⟨area, ha⟩ := contourArea_ok hne
  unfold getShapeType
  rw [ha, ok_bind]
  have h3 : approx.length ≠ 3 := by omega
  have h4 : approx.length ≠ 4 := by omega
  have h5 : ¬ approx.length > 4 := by omega
  simp only [h3, h4, h5, if_false]
  rfl

/-- On the empty polygon the area computation of line 56 fails before the
vertex count is looked at. -/
theorem getShapeType_nil (cv : CvLib) : getShapeType cv [] = .error .cvAssertion := by
  unfold getShapeType
  rw [contourArea_nil, error_bind]

/-- C3: a polygon with exactly 3 vertices is a "Triangle", whatever its
vertices are. -/
theorem getShapeType_triangle (cv : CvLib) (approx : List Point)
    (h : approx.length = 3) : getShapeType cv approx = .ok "Triangle" :=
  getShapeType_three cv approx h

theorem getShapeType_triangle_witness :
    contourArea [⟨7, 7⟩, ⟨7, 7⟩, ⟨7, 7⟩] = .ok 0 ∧
    getShapeType sampleCv [⟨7, 7⟩, ⟨7, 7⟩, ⟨7, 7⟩] = .ok "Triangle" ∧
    getShapeType sampleCv [⟨0, 0⟩, ⟨5, 5⟩, ⟨9, 9⟩] = .ok "Triangle" :=
  ⟨ok_of_toOption (by decide!), getShapeType_triangle sampleCv _ (by decide),
    getShapeType_triangle sampleCv _ (by decide)⟩

/-- C1 at the failing input: the 4-vertex polygon with corners `(0,0)`,
`(18,0)`, `(18,19)`, `(0,19)` has the bounding box of width 19 and height 20
(ratio exactly 0.95), its `float` ratio is below the `double` 0.95, and
`getShapeType` answers "Rectangle"; the box 21 x 20 (ratio 1.05) is a "Square". -/
theorem getShapeType_ratio_19_20 (cv : CvLib) :
    boundingRect [⟨0, 0⟩, ⟨18, 0⟩, ⟨18, 19⟩, ⟨0, 19⟩] = ⟨0, 0, 19, 20⟩ ∧
    f32 (f32 19 / f32 20) < d_0_95 ∧
    getShapeType cv [⟨0, 0⟩, ⟨18, 0⟩, ⟨18, 19⟩, ⟨0, 19⟩] = .ok "Rectangle" ∧
    getShapeType cv [⟨0, 0⟩, ⟨20, 0⟩, ⟨20, 19⟩, ⟨0, 19⟩] = .ok "Square" := by
  have hb : boundingRect [⟨0, 0⟩, ⟨18, 0⟩, ⟨18, 19⟩, ⟨0, 19⟩] = ⟨0, 0, 19, 20⟩ := by decide
  have hb2 : boundingRect [⟨0, 0⟩, ⟨20, 0⟩, ⟨20, 19⟩, ⟨0, 19⟩] = ⟨0, 0, 21, 20⟩ := by decide
  have hlt : f32 (f32 19 / f32 20) < d_0_95 := by decide!
  have h21 : d_0_95 ≤ f32 (f32 21 / f32 20) ∧ f32 (f32 21 / f32 20) ≤ d_1_05 := by decide!
  refine ⟨hb, hlt, ?_, ?_⟩
  · rw [getShapeType_four cv _ (by decide), hb, squareOrRectangle_eq]
    have : ¬ ((0 : ℤ) < 20 ∧ d_0_95 ≤ f32 (f32 19 / f32 20) ∧ f32 (f32 19 / f32 20) ≤ d_1_05) :=
      fun hx => absurd hx.2.1 (not_le.mpr hlt)
    simp only [Int.cast_ofNat]
    rw [if_neg this]
  · rw [getShapeType_four cv _ (by decide), hb2, squareOrRectangle_eq]
    have : ((0 : ℤ) < 20 ∧ d_0_95 ≤ f32 (f32 21 / f32 20) ∧ f32 (f32 21 / f32 20) ≤ d_1_05) :=
      ⟨by decide, h21⟩
    simp only [Int.cast_ofNat]
    rw [if_pos this]

/-- The band of the 4-vertex branch as the code computes it: for a bounding box
of width below `2 ^ 24` and height at most `2 ^ 21`, the answer is "Square"
exactly when `0.95 < width / height ≤ 1.05`; the lower bound is strict. -/
theorem squareOrRectangle_band (boundingBox : Rect)
    (hw : 0 < boundingBox.width) (hwb : boundingBox.width < 2 ^ 24)
    (hh : 0 < boundingBox.height) (hhb : boundingBox.height ≤ 2 ^ 21) :
    squareOrRectangle boundingBox = .ok "Square" ↔
      19 * boundingBox.height < 20 * boundingBox.width ∧
      20 * boundingBox.width ≤ 21 * boundingBox.height := by
  have ew : f32 (boundingBox.width : ℚ) = boundingBox.width :=
    f32_intCast _ (by rw [abs_of_pos hw]; exact hwb)
  have eh : f32 (boundingBox.height : ℚ) = boundingBox.height :=
    f32_intCast _ (by rw [abs_of_pos hh]; omega)
  have hwq : (0 : ℚ) < boundingBox.width := by exact_mod_cast hw
  have hhq : (0 : ℚ) < boundingBox.height := by exact_mod_cast hh
  have hhq2 : (boundingBox.height : ℚ) ≤ 2097152 := by exact_mod_cast hhb
  have hq : (0 : ℚ) < (boundingBox.width : ℚ) / boundingBox.height := div_pos hwq hhq
  -- the four boundary evaluations
  have v1 : f32 (19 / 20) < d_0_95 := by decide!
  have v2 : d_0_95 ≤ f32 (19 / 20 + 1 / (20 * 2097152)) := by decide!
  have v3 : f32 (21 / 20) ≤ d_1_05 := by decide!
  have v4 : d_1_05 < f32 (21 / 20 + 1 / (20 * 2097152)) := by decide!
  have gap : ∀ (a : ℤ), a * boundingBox.height < 20 * boundingBox.width →
      (a : ℚ) / 20 + 1 / (20 * 2097152) ≤ (boundingBox.width : ℚ) / boundingBox.height := by
    intro a ha
    have ha' : a * boundingBox.height + 1 ≤ 20 * boundingBox.width := by omega
    have haq : (a : ℚ) * boundingBox.height + 1 ≤ 20 * boundingBox.width := by
      exact_mod_cast ha'
    rw [le_div_iff₀ hhq]
    have : (1 : ℚ) / (20 * 2097152) * boundingBox.height ≤ 1 / 20 := by
      rw [div_mul_eq_mul_div, div_le_div_iff₀ (by norm_num) (by norm_num)]
      linarith
    linarith
  have lower : d_0_95 ≤ f32 ((boundingBox.width : ℚ) / boundingBox.height) ↔
      19 * boundingBox.height < 20 * boundingBox.width := by
    constructor
    · intro h
      by_contra hn
      have hle : (boundingBox.width : ℚ) / boundingBox.height ≤ 19 / 20 := by
        rw [div_le_div_iff₀ hhq (by norm_num)]
        have : 20 * boundingBox.width ≤ 19 * boundingBox.height := not_lt.mp hn
        have : (20 : ℚ) * boundingBox.width ≤ 19 * boundingBox.height := by exact_mod_cast this
        linarith
      have := f32_mono hq hle
      linarith
    · intro h
      have hg : (19 : ℚ) / 20 + 1 / (20 * 2097152) ≤
          (boundingBox.width : ℚ) / boundingBox.height := by simpa using gap 19 h
      have := f32_mono (by norm_num) hg
      linarith
  have upper : f32 ((boundingBox.width : ℚ) / boundingBox.height) ≤ d_1_05 ↔
      20 * boundingBox.width ≤ 21 * boundingBox.height := by
    constructor
    · intro h
      by_contra hn
      have hg : (21 : ℚ) / 20 + 1 / (20 * 2097152) ≤
          (boundingBox.width : ℚ) / boundingBox.height := by simpa using gap 21 (not_le.mp hn)
      have := f32_mono (by norm_num) hg
      linarith
    · intro h
      have hle : (boundingBox.width : ℚ) / boundingBox.height ≤ 21 / 20 := by
        rw [div_le_div_iff₀ hhq (by norm_num)]
        have : (20 : ℚ) * boundingBox.width ≤ 21 * boundingBox.height := by exact_mod_cast h
        linarith
      have := f32_mono hq hle
      linarith
  rw [squareOrRectangle_eq, ew, eh]
  constructor
  · intro h
    injection h with h
    by_cases hc : 0 < boundingBox.height ∧
        d_0_95 ≤ f32 ((boundingBox.width : ℚ) / boundingBox.height) ∧
        f32 ((boundingBox.width : ℚ) / boundingBox.height) ≤ d_1_05
    · exact ⟨lower.mp hc.2.1, upper.mp hc.2.2⟩
    · rw [if_neg hc] at h
      exact absurd h (by decide)
  · intro h
    rw [if_pos ⟨hh, lower.mpr h.1, upper.mpr h.2⟩]

theorem squareOrRectangle_band_witness :
    squareOrRectangle ⟨0, 0, 96, 100⟩ = .ok "Square" ↔
      19 * (100 : ℤ) < 20 * 96 ∧ 20 * (96 : ℤ) ≤ 21 * 100 :=
  squareOrRectangle_band ⟨0, 0, 96, 100⟩ (by decide) (by decide) (by decide) (by decide)


/-- On every non-empty polygon `getShapeType` returns a label. -/
theorem getShapeType_total (cv : CvLib) (approx : List Point) (hne : approx ≠ []) :
    ∃ s, getShapeType cv approx = .ok s := by
  obtain ⟨area, ha⟩ := contourArea_ok hne
  rcases lt_trichotomy approx.length 3 with h | h | h
  · exact ⟨_, getShapeType_few cv approx hne h⟩
  · exact ⟨_, getShapeType_three cv approx h⟩
  · rcases (show 4 ≤ approx.length from h).eq_or_lt with h4 | h4
    · exact ⟨_, (getShapeType_four cv approx h4.symm).trans (squareOrRectangle_eq _)⟩
    · exact ⟨_, getShapeType_many cv approx area h4 ha⟩

/-- The labels by vertex count on a non-empty polygon: "Unknown" exactly for
1 or 2 vertices, one of the seven other labels for 3 or more. -/
theorem getShapeType_labels (cv : CvLib) (approx : List Point) (hne : approx ≠ []) :
    (getShapeType cv approx = .ok "Unknown" ↔ approx.length < 3) ∧
    (3 ≤ approx.length →
      ∃ s ∈ ["Triangle", "Square", "Rectangle", "Pentagon", "Hexagon", "Circle", "Polygon"],
        getShapeType cv approx = .ok s) := by
  obtain ⟨area, ha⟩ := contourArea_ok hne
  have key : 3 ≤ approx.length →
      ∃ s ∈ ["Triangle", "Square", "Rectangle", "Pentagon", "Hexagon", "Circle", "Polygon"],
        getShapeType cv approx = .ok s := by
    intro h
    rcases h.eq_or_lt with h3 | h3
    · exact ⟨"Triangle", by simp, getShapeType_three cv approx h3.symm⟩
    · rcases (show 4 ≤ approx.length from h3).eq_or_lt with h4 | h4
      · rw [getShapeType_four cv approx h4.symm, squareOrRectangle_eq]
        split_ifs
        · exact ⟨"Square", by simp, rfl⟩
        · exact ⟨"Rectangle", by simp, rfl⟩
      · rw [getShapeType_many cv approx area h4 ha]
        split_ifs
        · exact ⟨"Circle", by simp, rfl⟩
        · exact ⟨"Pentagon", by simp, rfl⟩
        · exact ⟨"Hexagon", by simp, rfl⟩
        · exact ⟨"Polygon", by simp, rfl⟩
  refine ⟨⟨fun h => ?_, getShapeType_few cv approx hne⟩, key⟩
  by_contra hlen
  obtain ⟨s, hs, he⟩ := key (by omega)
  rw [he] at h
  injection h with h
  subst h
  revert hs
  decide

theorem getShapeType_labels_witness :
    (getShapeType sampleCv [⟨1, 2⟩, ⟨3, 4⟩] = .ok "Unknown" ↔
      [(⟨1, 2⟩ : Point), ⟨3, 4⟩].length < 3) ∧
    ∃ s ∈ ["Triangle", "Square", "Rectangle", "Pentagon", "Hexagon", "Circle", "Polygon"],
      getShapeType sampleCv [⟨0, 0⟩, ⟨9, 0⟩, ⟨9, 9⟩, ⟨0, 9⟩] = .ok s :=
  ⟨(getShapeType_labels sampleCv [⟨1, 2⟩, ⟨3, 4⟩] (by decide)).1,
    (getShapeType_labels sampleCv [⟨0, 0⟩, ⟨9, 0⟩, ⟨9, 9⟩, ⟨0, 9⟩] (by decide)).2 (by decide)⟩

/-- C7 at the failing input: on the empty polygon (0 vertices, fewer than 3)
`cv::contourArea` of line 56 rejects its argument before the vertex count is
looked at, so `getShapeType` returns no label, and in particular not "Unknown". -/
theorem getShapeType_empty_polygon (cv : CvLib) :
    ([] : List Point).length < 3 ∧
    contourArea [] = .error .cvAssertion ∧
    getShapeType cv [] = .error .cvAssertion ∧
    getShapeType cv [] ≠ .ok "Unknown" := by
  refine ⟨by decide, contourArea_nil, getShapeType_nil cv, ?_⟩
  rw [getShapeType_nil]
  intro h
  cases h

/-- C8: `getShapeType` never divides by zero: with every division checked it
never ends in a division fault, and returns a label for every non-empty
polygon; a bounding box whose height is not positive makes the aspect ratio
`0` and the 4-vertex answer "Rectangle"; and a polygon of more than 4 vertices
with zero perimeter, zero area and zero enclosing radius fires neither circle
test and gets the vertex-count label. -/
theorem getShapeType_no_division_by_zero (cv : CvLib) (approx : List Point)
    (boundingBox : Rect) :
    getShapeType cv approx ≠ .error .divisionByZero ∧
    (approx ≠ [] → ∃ s, getShapeType cv approx = .ok s) ∧
    (boundingBox.height ≤ 0 → squareOrRectangle boundingBox = .ok "Rectangle") ∧
    (4 < approx.length → arcLength approx true = 0 → contourArea approx = .ok 0 →
      (cv.minEnclosingCircle approx).2 = 0 →
      getShapeType cv approx = .ok
        (if approx.length = 5 then "Pentagon"
         else if approx.length = 6 then "Hexagon" else "Polygon")) := by
  refine ⟨?_, getShapeType_total cv approx, fun hh => ?_, fun h hp ha hr => ?_⟩
  · by_cases hne : approx = []
    · subst hne
      rw [getShapeType_nil]
      intro h
      cases h
    · obtain ⟨s, hs⟩ := getShapeType_total cv approx hne
      rw [hs]
      intro h
      cases h
  · rw [squareOrRectangle_eq, if_neg]
    intro hx
    exact absurd hx.1 (not_lt.mpr hh)
  · rw [getShapeType_many cv approx 0 h ha, hp, hr, if_neg]
    rintro (hx | hx)
    · exact lt_irrefl _ hx.1
    · exact lt_irrefl _ hx.1

theorem getShapeType_no_division_by_zero_witness :
    arcLength [⟨7, 7⟩, ⟨7, 7⟩, ⟨7, 7⟩, ⟨7, 7⟩, ⟨7, 7⟩] true = 0 ∧
    contourArea [⟨7, 7⟩, ⟨7, 7⟩, ⟨7, 7⟩, ⟨7, 7⟩, ⟨7, 7⟩] = .ok 0 ∧
    getShapeType sampleCv [⟨7, 7⟩, ⟨7, 7⟩, ⟨7, 7⟩, ⟨7, 7⟩, ⟨7, 7⟩] = .ok "Pentagon" ∧
    squareOrRectangle ⟨3, 4, 5, 0⟩ = .ok "Rectangle" :=
  have h := getShapeType_no_division_by_zero sampleCv
    [⟨7, 7⟩, ⟨7, 7⟩, ⟨7, 7⟩, ⟨7, 7⟩, ⟨7, 7⟩] ⟨3, 4, 5, 0⟩
  have ha : contourArea [⟨7, 7⟩, ⟨7, 7⟩, ⟨7, 7⟩, ⟨7, 7⟩, ⟨7, 7⟩] = .ok 0 :=
    ok_of_toOption (by decide!)
  ⟨by decide!, ha, h.2.2.2 (by decide) (by decide!) ha rfl, h.2.2.1 (by decide)⟩

/-- C2: for a polygon of more than 4 vertices, with `area` the value returned
by `contourArea`, `perimeter = arcLength` (closed) and `r` the radius of the
minimum enclosing circle, `getShapeType` answers "Circle" exactly when
`perimeter > 0`, `area > 0` and `0.85 < 4 * pi * area / perimeter ^ 2 < 1.15`, or
`r > 0`, `pi * r ^ 2 > 0` and `|1 - area / (pi * r ^ 2)| < 0.15`
(the quotients being the program's `double` expressions); when neither test
fires the answer is "Pentagon" for 5, "Hexagon" for 6 and "Polygon" for 7 or
more vertices. -/
theorem getShapeType_circle_iff (cv : CvLib) (approx : List Point)
    (h : 4 < approx.length) :
    ∃ area, contourArea approx = .ok area ∧
    let perimeter := arcLength approx true
    let r := (cv.minEnclosingCircle approx).2
    let circularity := f64 (f64 (f64 (4 * CV_PI) * area) / f64 (perimeter * perimeter))
    let circleArea := f64 (f64 (CV_PI * r) * r)
    let isoperimetric := 0 < perimeter ∧ 0 < area ∧ d_0_85 < circularity ∧ circularity < d_1_15
    let enclosing := 0 < r ∧ 0 < circleArea ∧ |f64 (1 - f64 (area / circleArea))| < d_0_15
    (getShapeType cv approx = .ok "Circle" ↔ isoperimetric ∨ enclosing) ∧
    (¬ (isoperimetric ∨ enclosing) →
      getShapeType cv approx = .ok
        (if approx.length = 5 then "Pentagon"
         else if approx.length = 6 then "Hexagon" else "Polygon")) := by
  obtain ⟨area, ha⟩ := contourArea_ok (ne_nil_of_length_pos (by omega : 0 < approx.length))
  refine ⟨area, ha, ?_⟩
  intro perimeter r circularity circleArea isoperimetric enclosing
  have hm := getShapeType_many cv approx area h ha
  by_cases ht : isoperimetric ∨ enclosing
  · rw [if_pos ht] at hm
    exact ⟨⟨fun _ => ht, fun _ => hm⟩, fun hn => absurd ht hn⟩
  · rw [if_neg ht] at hm
    refine ⟨⟨fun hc => ?_, fun hx => absurd hx ht⟩, fun _ => hm⟩
    rw [hm] at hc
    exfalso
    injection hc with hc
    split_ifs at hc <;> revert hc <;> decide

theorem getShapeType_circle_iff_witness :
    getShapeType sampleCv [⟨0, 0⟩, ⟨100, 0⟩, ⟨100, 1⟩, ⟨50, 2⟩, ⟨0, 1⟩] = .ok "Pentagon" ∧
    getShapeType sampleCv [⟨0, 0⟩, ⟨10, 0⟩, ⟨13, 9⟩, ⟨5, 15⟩, ⟨-3, 9⟩] = .ok "Circle" := by
  obtain ⟨a1, h1, hc1⟩ := getShapeType_circle_iff sampleCv
    [⟨0, 0⟩, ⟨100, 0⟩, ⟨100, 1⟩, ⟨50, 2⟩, ⟨0, 1⟩] (by decide)
  obtain ⟨a2, h2, hc2⟩ := getShapeType_circle_iff sampleCv
    [⟨0, 0⟩, ⟨10, 0⟩, ⟨13, 9⟩, ⟨5, 15⟩, ⟨-3, 9⟩] (by decide)
  have e1 : contourArea [⟨0, 0⟩, ⟨100, 0⟩, ⟨100, 1⟩, ⟨50, 2⟩, ⟨0, 1⟩] = .ok 150 :=
    ok_of_toOption (by decide!)
  have e2 : contourArea [⟨0, 0⟩, ⟨10, 0⟩, ⟨13, 9⟩, ⟨5, 15⟩, ⟨-3, 9⟩] = .ok 165 :=
    ok_of_toOption (by decide!)
  rw [e1] at h1
  rw [e2] at h2
  injection h1 with h1
  injection h2 with h2
  subst h1
  subst h2
  exact ⟨hc1.2 (by decide!), hc2.1.mpr (by decide!)⟩

/-! ## The label anchor -/

/-- The anchor computation in closed form: it never faults. -/
theorem labelAnchor_eq (M : Moments) (contour : List Point) :
    labelAnchor M contour = .ok
      (if M.m00 ≠ 0 then
        ⟨truncToInt (f64 (M.m10 / M.m00)) - 20, truncToInt (f64 (M.m01 / M.m00))⟩
      else
        ⟨(boundingRect contour).x + Int.tdiv (boundingRect contour).width 2 - 20,
          (boundingRect contour).y + Int.tdiv (boundingRect contour).height 2⟩) := by
  unfold labelAnchor
  by_cases h : M.m00 = 0
  · simp only [h, ne_eq, not_true_eq_false, if_false]
    rfl
  · simp only [h, ne_eq, not_false_eq_true, if_true, fdiv64_ok h, ok_bind]
    rfl

/-- A skipped outline: the body is a `continue`. -/
theorem mainLoopBody_skip (cv : CvLib) (i : ℕ) (contour : List Point) (area : ℚ)
    (ha : contourArea contour = .ok area)
    (h : area < 500 ∨ arcLength contour true = 0) :
    mainLoopBody cv i contour = .ok none := by
  unfold mainLoopBody
  rw [ha, ok_bind]
  by_cases hlt : area < 500
  · simp only [hlt, if_true]
    rfl
  · have hp : arcLength contour true = 0 := h.resolve_left hlt
    simp only [hlt, if_false, hp, if_true]
    rfl

/-- A kept outline: the body emits its report line, drawing and label. -/
theorem mainLoopBody_keep (cv : CvLib) (i : ℕ) (contour : List Point) (area : ℚ)
    (ha : contourArea contour = .ok area)
    (h500 : 500 ≤ area) (hp : arcLength contour true ≠ 0) :
    ∃ e, mainLoopBody cv i contour = .ok (some e) ∧ e.index = i ∧
      e.vertices = (cv.approxPolyDP contour (f64 (d_0_01 * arcLength contour true)) true).length ∧
      getShapeType cv (cv.approxPolyDP contour (f64 (d_0_01 * arcLength contour true)) true)
        = .ok e.shape ∧
      e.area = area ∧ e.drawn = contour ∧
      labelAnchor (cv.moments contour) contour = .ok e.anchor := by
  obtain ⟨s, hs⟩ := getShapeType_total cv
    (cv.approxPolyDP contour (f64 (d_0_01 * arcLength contour true)) true)
    (cv.approxPolyDP_ne_nil _ _ _ (ne_nil_of_contourArea_ok ha))
  have hl := labelAnchor_eq (cv.moments contour) contour
  refine ⟨⟨i, _, s, area, contour, _⟩, ?_, rfl, rfl, hs, rfl, rfl, hl⟩
  unfold mainLoopBody
  rw [ha, ok_bind]
  simp only [not_lt.mpr h500, if_false, hp, hs, hl, ok_bind]
  rfl

/-- The loop from index `k` on, over non-empty outlines: it completes, emits
exactly the kept outlines with their own indices, in increasing order. -/
theorem mainLoop_spec (cv : CvLib) : ∀ (contours : List (List Point)) (k : ℕ),
    (∀ c ∈ contours, c ≠ []) →
    ∃ out, mainLoop cv k contours = .ok out ∧
      (∀ e ∈ out, k ≤ e.index ∧ ∃ c, contours[e.index - k]? = some c ∧
        500 ≤ e.area ∧ arcLength c true ≠ 0 ∧
        e.vertices = (cv.approxPolyDP c (f64 (d_0_01 * arcLength c true)) true).length ∧
        getShapeType cv (cv.approxPolyDP c (f64 (d_0_01 * arcLength c true)) true)
          = .ok e.shape ∧
        contourArea c = .ok e.area ∧ e.drawn = c ∧
        labelAnchor (cv.moments c) c = .ok e.anchor) ∧
      (∀ j c area, contours[j]? = some c → contourArea c = .ok area → 500 ≤ area →
        arcLength c true ≠ 0 → ∃ e ∈ out, e.index = k + j) ∧
      out.Pairwise (fun a b => a.index < b.index)
  | [], k, _ => ⟨[], rfl, by simp, by simp, List.Pairwise.nil⟩
  | c :: rest, k, hne => by
    obtain ⟨more, hmore, h1, h2, h3⟩ := mainLoop_spec cv rest (k + 1)
      (fun c' hc' => hne c' (List.mem_cons_of_mem _ hc'))
    obtain ⟨area, harea⟩ := contourArea_ok (hne c (List.mem_cons_self _ _))
    have lift : ∀ e ∈ more, k ≤ e.index ∧ ∃ c', (c :: rest)[e.index - k]? = some c' ∧
        500 ≤ e.area ∧ arcLength c' true ≠ 0 ∧
        e.vertices = (cv.approxPolyDP c' (f64 (d_0_01 * arcLength c' true)) true).length ∧
        getShapeType cv (cv.approxPolyDP c' (f64 (d_0_01 * arcLength c' true)) true)
          = .ok e.shape ∧
        contourArea c' = .ok e.area ∧ e.drawn = c' ∧
        labelAnchor (cv.moments c') c' = .ok e.anchor := by
      intro e he
      obtain ⟨hk, c', hc', hrest⟩ := h1 e he
      refine ⟨by omega, c', ?_, hrest⟩
      have : e.index - k = (e.index - (k + 1)) + 1 := by omega
      rw [this, List.getElem?_cons_succ]
      exact hc'
    by_cases hkeep : 500 ≤ area ∧ arcLength c true ≠ 0
    · obtain ⟨e, he, hi, hv, hs, hea, hd, hl⟩ :=
        mainLoopBody_keep cv k c area harea hkeep.1 hkeep.2
      refine ⟨e :: more, ?_, ?_, ?_, ?_⟩
      · rw [mainLoop, he, ok_bind, hmore, ok_bind]
        rfl
      · intro e' he'
        rcases List.mem_cons.mp he' with rfl | hm
        · refine ⟨by omega, c, ?_, by rw [hea]; exact hkeep.1, hkeep.2, hv, hs,
            by rw [hea]; exact harea, hd, hl⟩
          rw [hi, Nat.sub_self]
          exact List.getElem?_cons_zero
        · exact lift e' hm
      · intro j c' area' hj ha h5 hp
        cases j with
        | zero => exact ⟨e, List.mem_cons_self _ _, by omega⟩
        | succ j =>
          rw [List.getElem?_cons_succ] at hj
          obtain ⟨e', he', hi'⟩ := h2 j c' area' hj ha h5 hp
          exact ⟨e', List.mem_cons_of_mem _ he', by omega⟩
      · refine List.Pairwise.cons ?_ h3
        intro e' he'
        have := (h1 e' he').1
        omega
    · have hskip : area < 500 ∨ arcLength c true = 0 := by
        by_cases h5 : 500 ≤ area
        · right
          by_contra hp
          exact hkeep ⟨h5, hp⟩
        · left
          exact not_le.mp h5
      refine ⟨more, ?_, lift, ?_, h3⟩
      · rw [mainLoop, mainLoopBody_skip cv k c area harea hskip, ok_bind, hmore, ok_bind]
        rfl
      · intro j c' area' hj ha h5 hp
        cases j with
        | zero =>
          rw [List.getElem?_cons_zero] at hj
          cases hj
          rw [harea] at ha
          injection ha with ha
          subst ha
          exact absurd ⟨h5, hp⟩ hkeep
        | succ j =>
          rw [List.getElem?_cons_succ] at hj
          obtain ⟨e', he', hi'⟩ := h2 j c' area' hj ha h5 hp
          exact ⟨e', he', by omega⟩

/-- C4: on every list of extracted (hence non-empty) outlines the loop of
`main` completes; it emits a report line (with classification, drawing and
label) for outline `i` exactly when `area ≥ 500` and `perimeter ≠ 0`; the
emissions are in increasing index order and each carries the index, area and
classification of its own outline. -/
theorem mainLoop_emits (cv : CvLib) (contours : List (List Point))
    (hne : ∀ c ∈ contours, c ≠ []) :
    ∃ out, mainLoop cv 0 contours = .ok out ∧
      (∀ i, (∃ e ∈ out, e.index = i) ↔
        ∃ c area, contours[i]? = some c ∧ contourArea c = .ok area ∧ 500 ≤ area ∧
          arcLength c true ≠ 0) ∧
      out.Pairwise (fun a b => a.index < b.index) ∧
      (∀ e ∈ out, ∃ c, contours[e.index]? = some c ∧
        e.vertices = (cv.approxPolyDP c (f64 (d_0_01 * arcLength c true)) true).length ∧
        getShapeType cv (cv.approxPolyDP c (f64 (d_0_01 * arcLength c true)) true)
          = .ok e.shape ∧
        contourArea c = .ok e.area ∧ e.drawn = c ∧
        labelAnchor (cv.moments c) c = .ok e.anchor) := by
  obtain ⟨out, hout, h1, h2, h3⟩ := mainLoop_spec cv contours 0 hne
  refine ⟨out, hout, fun i => ⟨?_, ?_⟩, h3, ?_⟩
  · rintro ⟨e, he, rfl⟩
    obtain ⟨_, c, hc, h5, hp, _, _, ha, _⟩ := h1 e he
    exact ⟨c, e.area, by simpa using hc, ha, h5, hp⟩
  · rintro ⟨c, area, hc, ha, h5, hp⟩
    obtain ⟨e, he, hi⟩ := h2 i c area hc ha h5 hp
    exact ⟨e, he, by omega⟩
  · intro e he
    obtain ⟨_, c, hc, _, _, hrest⟩ := h1 e he
    exact ⟨c, by simpa using hc, hrest⟩

theorem mainLoop_emits_witness :
    ∃ out, mainLoop sampleCv 0
        [[⟨0, 0⟩, ⟨9, 0⟩, ⟨9, 9⟩, ⟨0, 9⟩], [⟨0, 0⟩, ⟨25, 0⟩, ⟨25, 20⟩, ⟨0, 20⟩]] = .ok out ∧
      (∃ e ∈ out, e.index = 1) ∧ ¬ (∃ e ∈ out, e.index = 0) := by
  obtain ⟨out, hout, hiff, _, _⟩ := mainLoop_emits sampleCv
    [[⟨0, 0⟩, ⟨9, 0⟩, ⟨9, 9⟩, ⟨0, 9⟩], [⟨0, 0⟩, ⟨25, 0⟩, ⟨25, 20⟩, ⟨0, 20⟩]] (by decide)
  have a0 : contourArea [⟨0, 0⟩, ⟨9, 0⟩, ⟨9, 9⟩, ⟨0, 9⟩] = .ok 81 :=
    ok_of_toOption (by decide!)
  have a1 : contourArea [⟨0, 0⟩, ⟨25, 0⟩, ⟨25, 20⟩, ⟨0, 20⟩] = .ok 500 :=
    ok_of_toOption (by decide!)
  have p1 : arcLength [⟨0, 0⟩, ⟨25, 0⟩, ⟨25, 20⟩, ⟨0, 20⟩] true = 90 := by decide!
  refine ⟨out, hout,
    (hiff 1).mpr ⟨[⟨0, 0⟩, ⟨25, 0⟩, ⟨25, 20⟩, ⟨0, 20⟩], 500, rfl, a1, le_rfl,
      by rw [p1]; norm_num⟩,
    fun hx => ?_⟩
  obtain ⟨c, area, hc, ha, h5, _⟩ := (hiff 0).mp hx
  simp only [List.getElem?_cons_zero, Option.some.injEq] at hc
  subst hc
  rw [a0] at ha
  injection ha with ha
  subst ha
  norm_num at h5

theorem sqrt32_pos {x : ℚ} (hx : 0 < x) : 0 < sqrt32 x := by
  unfold sqrt32
  rw [if_neg (not_le.mpr hx)]
  simp only
  have hu : (0 : ℚ) < (2 : ℚ) ^ (ilog2 x / 2 - 23) := two_zpow_pos _
  apply mul_pos _ hu
  have huu : (2 : ℚ) ^ (ilog2 x / 2 - 23) * (2 : ℚ) ^ (ilog2 x / 2 - 23) ≤ x := by
    rw [← zpow_add₀ (by norm_num : (2 : ℚ) ≠ 0)]
    calc (2 : ℚ) ^ (ilog2 x / 2 - 23 + (ilog2 x / 2 - 23))
        ≤ (2 : ℚ) ^ ilog2 x := zpow_le_zpow_right₀ (by norm_num) (by omega)
      _ ≤ x := zpow_ilog2_le hx
  have hn : (1 : ℚ) ≤ x / ((2 : ℚ) ^ (ilog2 x / 2 - 23) * (2 : ℚ) ^ (ilog2 x / 2 - 23)) := by
    rw [le_div_iff₀ (mul_pos hu hu)]
    linarith
  have hfl : 1 ≤ ⌊x / ((2 : ℚ) ^ (ilog2 x / 2 - 23) * (2 : ℚ) ^ (ilog2 x / 2 - 23))⌋₊ :=
    Nat.le_floor (by exact_mod_cast hn)
  have hm : 0 < isqrt ⌊x / ((2 : ℚ) ^ (ilog2 x / 2 - 23) * (2 : ℚ) ^ (ilog2 x / 2 - 23))⌋₊ := by
    rw [isqrt_eq_sqrt]
    exact Nat.sqrt_pos.mpr hfl
  have : 0 < (if 4 * (x / ((2 : ℚ) ^ (ilog2 x / 2 - 23) * (2 : ℚ) ^ (ilog2 x / 2 - 23))) <
        ((2 * isqrt ⌊x / ((2 : ℚ) ^ (ilog2 x / 2 - 23) * (2 : ℚ) ^ (ilog2 x / 2 - 23))⌋₊ + 1 : ℕ)
          : ℚ) ^ 2 then
        isqrt ⌊x / ((2 : ℚ) ^ (ilog2 x / 2 - 23) * (2 : ℚ) ^ (ilog2 x / 2 - 23))⌋₊
      else if ((2 * isqrt ⌊x / ((2 : ℚ) ^ (ilog2 x / 2 - 23) * (2 : ℚ) ^ (ilog2 x / 2 - 23))⌋₊ + 1
          : ℕ) : ℚ) ^ 2 <
          4 * (x / ((2 : ℚ) ^ (ilog2 x / 2 - 23) * (2 : ℚ) ^ (ilog2 x / 2 - 23))) then
        isqrt ⌊x / ((2 : ℚ) ^ (ilog2 x / 2 - 23) * (2 : ℚ) ^ (ilog2 x / 2 - 23))⌋₊ + 1
      else if isqrt ⌊x / ((2 : ℚ) ^ (ilog2 x / 2 - 23) * (2 : ℚ) ^ (ilog2 x / 2 - 23))⌋₊ % 2 = 0
        then isqrt ⌊x / ((2 : ℚ) ^ (ilog2 x / 2 - 23) * (2 : ℚ) ^ (ilog2 x / 2 - 23))⌋₊
      else isqrt ⌊x / ((2 : ℚ) ^ (ilog2 x / 2 - 23) * (2 : ℚ) ^ (ilog2 x / 2 - 23))⌋₊ + 1) := by
    split_ifs <;> omega
  exact_mod_cast this

theorem sqrt32_nonneg (x : ℚ) : 0 ≤ sqrt32 x := by
  by_cases hx : 0 < x
  · exact (sqrt32_pos hx).le
  · unfold sqrt32
    rw [if_pos (not_lt.mp hx)]

/-- The `float` length of a segment between two distinct `float` points is
positive. -/
theorem segment_pos {p prev : ℚ × ℚ} (h : p ≠ prev) :
    0 < sqrt32 (f32 (f32 (f32 (p.1 - prev.1) * f32 (p.1 - prev.1)) +
      f32 (f32 (p.2 - prev.2) * f32 (p.2 - prev.2)))) := by
  apply sqrt32_pos
  apply f32_pos
  have hx : 0 ≤ f32 (f32 (p.1 - prev.1) * f32 (p.1 - prev.1)) :=
    f32_nonneg (mul_self_nonneg _)
  have hy : 0 ≤ f32 (f32 (p.2 - prev.2) * f32 (p.2 - prev.2)) :=
    f32_nonneg (mul_self_nonneg _)
  by_cases h1 : p.1 = prev.1
  · have h2 : p.2 ≠ prev.2 := fun h2 => h (Prod.ext h1 h2)
    have hd : f32 (p.2 - prev.2) ≠ 0 := by
      rw [Ne, f32_eq_zero_iff]
      exact sub_ne_zero.mpr h2
    have : 0 < f32 (f32 (p.2 - prev.2) * f32 (p.2 - prev.2)) :=
      f32_pos (mul_self_pos.mpr hd)
    linarith
  · have hd : f32 (p.1 - prev.1) ≠ 0 := by
      rw [Ne, f32_eq_zero_iff]
      exact sub_ne_zero.mpr h1
    have : 0 < f32 (f32 (p.1 - prev.1) * f32 (p.1 - prev.1)) :=
      f32_pos (mul_self_pos.mpr hd)
    linarith

theorem arcStep_snd_pos_of_pos (st : (ℚ × ℚ) × ℚ) (pt : Point) (h : 0 < st.2) :
    0 < (arcStep st pt).2 := by
  unfold arcStep
  simp only
  apply f64_pos
  have := sqrt32_nonneg (f32 (f32 (f32 ((toPoint2f pt).1 - st.1.1) * f32 ((toPoint2f pt).1 - st.1.1)) +
      f32 (f32 ((toPoint2f pt).2 - st.1.2) * f32 ((toPoint2f pt).2 - st.1.2))))
  linarith

theorem arc_fold_pos_of_pos : ∀ (l : List Point) (st : (ℚ × ℚ) × ℚ), 0 < st.2 →
    0 < (l.foldl arcStep st).2
  | [], _, h => h
  | pt :: rest, st, h => by
    rw [List.foldl_cons]
    exact arc_fold_pos_of_pos rest _ (arcStep_snd_pos_of_pos st pt h)

/-- The accumulated length is positive as soon as one point differs from the
starting point. -/
theorem arc_fold_pos : ∀ (l : List Point) (prev : ℚ × ℚ) (acc : ℚ), 0 ≤ acc →
    (∃ pt ∈ l, toPoint2f pt ≠ prev) → 0 < (l.foldl arcStep (prev, acc)).2
  | [], _, _, _, h => by
    obtain ⟨pt, hpt, _⟩ := h
    cases hpt
  | pt :: rest, prev, acc, hacc, h => by
    rw [List.foldl_cons]
    by_cases hne : toPoint2f pt = prev
    · have hstep : arcStep (prev, acc) pt = (prev, (arcStep (prev, acc) pt).2) := by
        unfold arcStep
        simp only [hne]
      rw [hstep]
      apply arc_fold_pos rest prev _
      · unfold arcStep
        simp only
        apply f64_nonneg
        have := sqrt32_nonneg (f32 (f32 (f32 ((toPoint2f pt).1 - prev.1) *
          f32 ((toPoint2f pt).1 - prev.1)) +
          f32 (f32 ((toPoint2f pt).2 - prev.2) * f32 ((toPoint2f pt).2 - prev.2))))
        linarith
      · obtain ⟨pt', hmem, hd⟩ := h
        rcases List.mem_cons.mp hmem with rfl | hm
        · exact absurd hne hd
        · exact ⟨pt', hm, hd⟩
    · apply arc_fold_pos_of_pos
      unfold arcStep
      simp only
      apply f64_pos
      have := segment_pos hne
      linarith

/-- The shoelace sum stays zero while every point equals the starting point. -/
theorem area_fold_const : ∀ (l : List Point) (prev : ℚ × ℚ),
    (∀ pt ∈ l, toPoint2f pt = prev) → l.foldl areaStep (prev, 0) = (prev, 0)
  | [], _, _ => rfl
  | pt :: rest, prev, h => by
    rw [List.foldl_cons]
    have hp : toPoint2f pt = prev := h pt (List.mem_cons_self _ _)
    have hstep : areaStep (prev, 0) pt = (prev, 0) := by
      unfold areaStep
      simp only [hp]
      have : f64 (prev.1 * prev.2) - f64 (prev.2 * prev.1) = 0 := by
        rw [mul_comm]; ring
      rw [this]
      simp [f64, fround_zero]
    rw [hstep]
    exact area_fold_const rest prev (fun q hq => h q (List.mem_cons_of_mem _ hq))

/-- A positive area forces a positive perimeter. -/
theorem arcLength_pos_of_area_pos (contour : List Point) (area : ℚ)
    (ha : contourArea contour = .ok area) (h : 0 < area) :
    0 < arcLength contour true := by
  unfold contourArea at ha
  cases hl : contour.getLast? with
  | none =>
    rw [hl] at ha
    cases ha
  | some last =>
    rw [hl] at ha
    simp only at ha
    injection ha with ha
    have hex : ∃ pt ∈ contour, toPoint2f pt ≠ toPoint2f last := by
      by_contra hall
      push_neg at hall
      rw [area_fold_const contour _ hall] at ha
      simp [f64, fround_zero] at ha
      rw [← ha] at h
      exact lt_irrefl _ h
    have hlast : contour.getD (contour.length - 1) ⟨0, 0⟩ = last := by
      rw [List.getD_eq_getElem?_getD, ← List.getLast?_eq_getElem?, hl]
      rfl
    have hlen : ¬ contour.length ≤ 1 := by
      intro hle
      obtain ⟨pt, hmem, hd⟩ := hex
      match contour, hle, hmem, hl with
      | [a], _, hmem, hl =>
        simp only [List.getLast?_singleton, Option.some.injEq] at hl
        simp only [List.mem_singleton] at hmem
        subst hl
        subst hmem
        exact hd rfl
    unfold arcLength
    simp only [hlen, if_false, if_true, hlast]
    exact arc_fold_pos contour _ 0 le_rfl hex

/-- C10: an outline whose area is positive (in particular one that passed the
`area < 500` filter) has a strictly positive closed perimeter, so the
simplification tolerance `0.01 * perimeter` is strictly positive and the
`perimeter == 0` skip is never taken after the area filter: the loop body emits. -/
theorem perimeter_skip_unreachable (contour : List Point) (area : ℚ)
    (ha : contourArea contour = .ok area) (h : 0 < area) :
    0 < arcLength contour true ∧
    0 < f64 (d_0_01 * arcLength contour true) ∧
    (500 ≤ area →
      ∀ (cv : CvLib) (i : ℕ), ∃ e, mainLoopBody cv i contour = .ok (some e)) := by
  have hp := arcLength_pos_of_area_pos contour area ha h
  have h01 : 0 < d_0_01 := f64_pos (by norm_num)
  refine ⟨hp, f64_pos (mul_pos h01 hp), fun h5 cv i => ?_⟩
  obtain ⟨e, he, _⟩ := mainLoopBody_keep cv i contour area ha h5 hp.ne'
  exact ⟨e, he⟩

theorem perimeter_skip_unreachable_witness :
    contourArea [⟨0, 0⟩, ⟨30, 0⟩, ⟨30, 30⟩, ⟨0, 30⟩] = .ok 900 ∧
    0 < arcLength [⟨0, 0⟩, ⟨30, 0⟩, ⟨30, 30⟩, ⟨0, 30⟩] true ∧
    ∃ e, mainLoopBody sampleCv 1 [⟨0, 0⟩, ⟨30, 0⟩, ⟨30, 30⟩, ⟨0, 30⟩] = .ok (some e) :=
  have ha : contourArea [⟨0, 0⟩, ⟨30, 0⟩, ⟨30, 30⟩, ⟨0, 30⟩] = .ok 900 :=
    ok_of_toOption (by decide!)
  have h := perimeter_skip_unreachable [⟨0, 0⟩, ⟨30, 0⟩, ⟨30, 30⟩, ⟨0, 30⟩] 900 ha
    (by norm_num)
  ⟨ha, h.1, h.2.2 (by norm_num) sampleCv 1⟩

end ShapeRecognition
